import Mathlib

/-!
Verification development for the tally/aggregation engine of `git-who`
(`internal/tally/tally.go`).

Embedding conventions:
* Go `time.Time` values are modelled as natural numbers (seconds since an
  epoch); the zero time is `0` and `timeutils.Max` becomes `Nat.max`.
* Go `map[string]V` values are modelled as association lists kept sorted by a
  fixed total order on keys (`SMap V`).  Go map iteration order is
  unspecified; the sorted list is the canonical iteration order chosen by the
  embedding.  All maps built by the embedded code are canonical
  (`SMap.Canon`).
* The commit stream `iter.Seq2[git.Commit, error]` is modelled as a
  `List (Except String Commit)`: each element is either a commit or the
  error reported for that element.
* Go `int` counters that only ever accumulate non-negative quantities are
  modelled as `Nat`; `SortKey`, which returns `int64`, is modelled as `Int`.
* The mutation performed by `intermediateTally.Add` on the receiver's
  backing commit-set map (`union := a.commitset`) is modelled explicitly by
  `intermediateTally.AddLeftAfter`, the value of the receiver after the call.
-/

namespace GitWho

/-- Modelled from the spec: the per-path line delta of one commit, as exposed
by the external `git` package (spec section 6), which is not part of the
given sources. -/
structure FileDiff where
  path : String
  linesAdded : Nat
  linesRemoved : Nat
deriving DecidableEq

/-- Modelled from the spec: the commit record consumed by the tally engine
(spec section 6) — stable unique identifier, author display name, author
identity email, timestamp, and per-path diffs.  The `git.Commit` type itself
is not part of the given sources. -/
structure Commit where
  hash : String
  authorName : String
  authorEmail : String
  date : Nat
  fileDiffs : List FileDiff
deriving DecidableEq

/-- Ranking modes, tally.go lines 16-24.  In Go these are `int` constants
`iota` = 0,1,2,3; the inductive type is the enumerated set. -/
inductive TallyMode where
  | CommitMode
  | LinesMode
  | FilesMode
  | LastModifiedMode
deriving DecidableEq

/-- Integer value of each mode constant as declared by the Go `iota` block. -/
def modeInt : TallyMode → Int
  | .CommitMode => 0
  | .LinesMode => 1
  | .FilesMode => 2
  | .LastModifiedMode => 3

/-- Tally options, tally.go lines 26-29.  `key` is the caller-supplied
author-identity function. -/
structure TallyOpts where
  mode : TallyMode
  key : Commit → String

/-- Whether diff data is needed for this tally mode, tally.go lines 31-34. -/
def TallyOpts.IsDiffMode (opts : TallyOpts) : Bool :=
  decide (opts.mode = .FilesMode) || decide (opts.mode = .LinesMode)

/-- Final per-author statistics, tally.go lines 36-45. -/
structure Tally where
  AuthorName : String
  AuthorEmail : String
  Commits : Nat
  LinesAdded : Nat
  LinesRemoved : Nat
  FileCount : Nat
  LastCommitTime : Nat
deriving DecidableEq

/-- Zero value of the Go `Tally` struct. -/
def zeroTally : Tally :=
  { AuthorName := "", AuthorEmail := "", Commits := 0, LinesAdded := 0,
    LinesRemoved := 0, FileCount := 0, LastCommitTime := 0 }

/-- Ranking key, tally.go lines 47-60, for the four enumerated modes.  The Go
`default` branch (a panic) has no counterpart here because the inductive
`TallyMode` is exactly the enumerated set; `SortKeyGo` below models the raw
Go `int`-typed switch including that branch. -/
def Tally.SortKey (t : Tally) (mode : TallyMode) : Int :=
  match mode with
  | .CommitMode => (t.Commits : Int)
  | .FilesMode => (t.FileCount : Int)
  | .LinesMode => (t.LinesAdded : Int) + (t.LinesRemoved : Int)
  | .LastModifiedMode => (t.LastCommitTime : Int)

/-- Raw Go-level `SortKey`: `TallyMode` is an `int` in Go, so the switch in
tally.go lines 47-60 can in principle receive any integer; the `default`
branch panics, modelled as `none`. -/
def SortKeyGo (t : Tally) (mode : Int) : Option Int :=
  if mode = 0 then some ((t.Commits : Int))
  else if mode = 2 then some ((t.FileCount : Int))
  else if mode = 1 then some ((t.LinesAdded : Int) + (t.LinesRemoved : Int))
  else if mode = 3 then some ((t.LastCommitTime : Int))
  else none

/-- Three-way comparison of timestamps, modelling Go `time.Time.Compare`. -/
def timeCompare (a b : Nat) : Int :=
  if a < b then -1 else if b < a then 1 else 0

/-- Three-way comparison of tallies, tally.go lines 62-74: primary order by
`SortKey`, ties broken by last-commit time. -/
def Tally.Compare (a b : Tally) (mode : TallyMode) : Int :=
  let aRank := a.SortKey mode
  let bRank := b.SortKey mode
  if aRank < bRank then -1
  else if bRank < aRank then 1
  else timeCompare a.LastCommitTime b.LastCommitTime

/-- Strict total order on map keys used for the canonical representation of
Go maps: lexicographic order on the underlying character list. -/
def keyLt (a b : String) : Prop :=
  List.Lex (· < ·) a.data b.data

instance : DecidableRel keyLt := fun a b => List.Lex.decidableRel _ a.data b.data

/-- Association-list model of Go `map[string]V`, canonically sorted by
`keyLt` on keys. -/
abbrev SMap (V : Type) := List (String × V)

/-- Lookup in a map model; `none` models a key that is absent. -/
def SMap.find {V : Type} : SMap V → String → Option V
  | [], _ => none
  | (k', v) :: rest, k => if k' = k then some v else SMap.find rest k

/-- Insert-or-replace keeping the canonical key order. -/
def SMap.upsert {V : Type} : SMap V → String → V → SMap V
  | [], k, v => [(k, v)]
  | (k', v') :: rest, k, v =>
    if keyLt k k' then (k, v) :: (k', v') :: rest
    else if k = k' then (k, v) :: rest
    else (k', v') :: SMap.upsert rest k v

/-- Canonical-form invariant: keys strictly increasing in `keyLt`. -/
abbrev SMap.Canon {V : Type} (m : SMap V) : Prop :=
  (m.map Prod.fst).Pairwise keyLt

/-- Generic shape of the Go merge loops in tally.go (lines 160-174 and
200-211) and of `sumOverPaths` (lines 281-310): iterate over the entries of
`a`, writing an updated value into `b` for each key of `a`. -/
def SMap.mergeFold {V W : Type} (f : String → V → Option W → W)
    (a : SMap V) (b : SMap W) : SMap W :=
  a.foldl (fun u kv => SMap.upsert u kv.1 (f kv.1 kv.2 (SMap.find u kv.1))) b

/-- Combinable partial tally, tally.go lines 76-83.  The Go
`map[string]bool` commit set is modelled as a `Finset String`. -/
structure intermediateTally where
  commitset : Finset String
  added : Nat
  removed : Nat
  lastCommitTime : Nat
  numTallied : Nat
deriving DecidableEq

/-- Constructor `newTally`, tally.go lines 85-90. -/
def newTally (numTallied : Nat) : intermediateTally :=
  { commitset := ∅, added := 0, removed := 0, lastCommitTime := 0,
    numTallied := numTallied }

/-- Number of distinct contributing commits, tally.go lines 92-94. -/
def intermediateTally.Commits (t : intermediateTally) : Nat :=
  t.commitset.card

/-- Value returned by `Add`, tally.go lines 96-109: union of commit sets,
summed line counts, maximum timestamp, summed tallied counts. -/
def intermediateTally.Add (a b : intermediateTally) : intermediateTally :=
  { commitset := a.commitset ∪ b.commitset
    added := a.added + b.added
    removed := a.removed + b.removed
    lastCommitTime := max a.lastCommitTime b.lastCommitTime
    numTallied := a.numTallied + b.numTallied }

/-- State of the receiver `a` after the call `a.Add(b)`: the Go code aliases
`union := a.commitset` and inserts `b`'s commits into that same backing map
(tally.go lines 97-100), so after the call `a.commitset` holds the union and
is the very map referenced by the result. -/
def intermediateTally.AddLeftAfter (a b : intermediateTally) : intermediateTally :=
  { a with commitset := a.commitset ∪ b.commitset }

/-- Modelled from the spec: the per-author table entry (author display name,
email, and the map from file path to that path's partial tally, spec
sections 2-3).  The `AuthorPaths` type is referenced by tally.go
(`sumOverPaths` reads `author.name`, `author.email`, `author.paths`) but its
declaration is not part of the given sources. -/
structure AuthorPaths where
  name : String
  email : String
  paths : SMap intermediateTally
deriving DecidableEq

/-- Modelled from the spec: table union (spec section 3): keys present in
only one table pass through, keys present in both combine their per-path
maps entrywise via `intermediateTally.Add`; the receiver's display
name/email are kept.  `AuthorPaths.Union` is called by tally.go line 205 but
its definition is not part of the given sources. -/
def AuthorPaths.Union (a b : AuthorPaths) : AuthorPaths :=
  { name := a.name
    email := a.email
    paths := SMap.mergeFold
      (fun _ pa pb? => match pb? with
        | some pb => pa.Add pb
        | none => pa)
      a.paths b.paths }

/-- Error-message context used when the commit sequence yields an error
(tally.go line 238 and the analogous wrap in `tallyByPaths`). -/
def iterErrMsg : String := "error iterating commits: "

/-- Configuration error returned by the simple pipeline for diff-requiring
modes, tally.go line 149. -/
def unsupportedModeErr : String := "unsupported tally mode"

/-- Modelled from the spec: the partial tally representing exactly one
commit's contribution at one path (spec section 4.3): its identifier, its
line deltas for that path, its timestamp, and no tallied-count contribution
(the tallied count of 1 is carried by the per-path seed, see `diffStep`). -/
def commitPartial (c : Commit) (d : FileDiff) : intermediateTally :=
  { commitset := {c.hash}, added := d.linesAdded, removed := d.linesRemoved,
    lastCommitTime := c.date, numTallied := 0 }

/-- Modelled from the spec: processing of one diff entry of one commit into
the author's per-path map (spec section 4.3): look up or create (seeded with
a tallied count of 1) the partial for the touched path, and combine in the
partial representing exactly this commit. -/
def diffStep (c : Commit) (a : AuthorPaths) (d : FileDiff) : AuthorPaths :=
  let pathTally := (SMap.find a.paths d.path).getD (newTally 1)
  { a with paths := SMap.upsert a.paths d.path (pathTally.Add (commitPartial c d)) }

/-- Modelled from the spec: one step of author-paths table construction for a
single commit (spec section 4.3).  The author entry is looked up or created,
its display name/email refreshed from the commit, and every file path of the
commit's diff is processed by `diffStep`; the per-path partial is seeded
with a tallied-count of 1 when the path is first seen, per `NewPartial` in
spec section 4.2 and the invariant that the final file count equals the
number of distinct paths, spec section 3.  The function `tallyByPaths` is
called by tally.go lines 197 and 255 but its definition is not part of the
given sources. -/
def tallyByPathsStep (opts : TallyOpts) (authors : SMap AuthorPaths)
    (c : Commit) : SMap AuthorPaths :=
  let key := opts.key c
  let author : AuthorPaths :=
    match SMap.find authors key with
    | some a => { a with name := c.authorName, email := c.authorEmail }
    | none => { name := c.authorName, email := c.authorEmail, paths := [] }
  let author := c.fileDiffs.foldl (diffStep c) author
  SMap.upsert authors key author

/-- Modelled from the spec: the iteration loop of `tallyByPaths` over the
commit sequence, aborting on the first error with a wrapped message (spec
section 4.3). -/
def tallyByPathsLoop (opts : TallyOpts) (authors : SMap AuthorPaths) :
    List (Except String Commit) → Except String (SMap AuthorPaths)
  | [] => .ok authors
  | .error e :: _ => .error (iterErrMsg ++ e)
  | .ok c :: rest => tallyByPathsLoop opts (tallyByPathsStep opts authors c) rest

/-- Modelled from the spec: `tallyByPaths` (spec section 4.3) builds the
author-paths table from the commit sequence.  The working-tree set is
accepted but not consulted — filtering happens in `sumOverPaths` (spec
sections 4.3-4.4: the per-path table keeps every historically touched path;
the scenario in spec section 8 keeps the deleted path in the table and
excludes it only at reduction). -/
def tallyByPaths (commits : List (Except String Commit))
    (_wtreefiles : List String) (opts : TallyOpts) :
    Except String (SMap AuthorPaths) :=
  tallyByPathsLoop opts [] commits

/-- Pure per-commit table builder used to characterise `tallyByPaths` on an
error-free commit list. -/
def tableOf (opts : TallyOpts) (cs : List Commit) : SMap AuthorPaths :=
  cs.foldl (tallyByPathsStep opts) []

/-- Author-level reduction `sumOverPaths`, tally.go lines 281-310: for each
author, fold the per-path partials whose path passes the working-tree filter
(or accepted because the override flag is set) into a running partial, then read the
final `Tally` fields off the running partial. -/
def sumOverPaths (authors : SMap AuthorPaths) (wtreefiles : List String)
    (allowOutsideWorktree : Bool) : SMap Tally :=
  SMap.mergeFold
    (fun _ author _ =>
      let runningTally := author.paths.foldl
        (fun r pv =>
          if decide (pv.1 ∈ wtreefiles) || allowOutsideWorktree
          then r.Add pv.2 else r)
        (newTally 0)
      { AuthorName := author.name, AuthorEmail := author.email,
        Commits := runningTally.Commits, LinesAdded := runningTally.added,
        LinesRemoved := runningTally.removed,
        FileCount := runningTally.numTallied,
        LastCommitTime := runningTally.lastCommitTime })
    authors []

/-- One step of the simple (non-diff) strategy, tally.go lines 241-252:
refresh the author's name and email, increment the commit count, raise the
last-commit time. -/
def tallySimpleStep (opts : TallyOpts) (authorTallies : SMap Tally)
    (c : Commit) : SMap Tally :=
  let key := opts.key c
  let t := (SMap.find authorTallies key).getD zeroTally
  SMap.upsert authorTallies key
    { t with AuthorName := c.authorName, AuthorEmail := c.authorEmail,
             Commits := t.Commits + 1,
             LastCommitTime := max c.date t.LastCommitTime }

/-- Iteration loop of the simple strategy, tally.go lines 236-253, aborting
on the first error with the wrapped message of line 238. -/
def tallySimpleLoop (opts : TallyOpts) (m : SMap Tally) :
    List (Except String Commit) → Except String (SMap Tally)
  | [] => .ok m
  | .error e :: _ => .error (iterErrMsg ++ e)
  | .ok c :: rest => tallySimpleLoop opts (tallySimpleStep opts m c) rest

/-- Sequential aggregation engine `tallyCommits`, tally.go lines 221-271:
simple counting when no diff data is needed and the working-tree filter is
disabled, otherwise the path-aware strategy (`tallyByPaths` then
`sumOverPaths`). -/
def tallyCommits (commits : List (Except String Commit))
    (wtreefiles : List String) (allowOutsideWorktree : Bool)
    (opts : TallyOpts) : Except String (SMap Tally) :=
  if !opts.IsDiffMode && allowOutsideWorktree then
    tallySimpleLoop opts [] commits
  else
    match tallyByPaths commits wtreefiles opts with
    | .error e => .error e
    | .ok pathTallies =>
      .ok (sumOverPaths pathTallies wtreefiles allowOutsideWorktree)

/-- Descending-order relation used by `sortTallies`: `a` may precede `b`
when `a.Compare b mode >= 0` (Go sorts ascending by `-a.Compare(b, mode)`,
tally.go lines 273-279). -/
def tallyLE (mode : TallyMode) (a b : Tally) : Prop :=
  0 ≤ a.Compare b mode

instance (mode : TallyMode) : DecidableRel (tallyLE mode) :=
  fun a b => inferInstanceAs (Decidable (0 ≤ a.Compare b mode))

/-- Sorting step `sortTallies`, tally.go lines 273-279.  Go sorts the map's
values (in unspecified map order, with an unstable sort); the embedding
sorts the canonical value list with insertion sort, one deterministic
resolution of the unspecified tie order. -/
def sortTallies (tallies : SMap Tally) (mode : TallyMode) : List Tally :=
  List.insertionSort (tallyLE mode) (tallies.map Prod.snd)

/-- Entry point `TallyCommits`, tally.go lines 113-132: aggregate, then sort. -/
def TallyCommits (commits : List (Except String Commit))
    (wtreefiles : List String) (allowOutsideWorktree : Bool)
    (opts : TallyOpts) : Except String (List Tally) :=
  match tallyCommits commits wtreefiles allowOutsideWorktree opts with
  | .error e => .error e
  | .ok authorTallies => .ok (sortTallies authorTallies opts.mode)

/-- Apply function of the simple pipeline, tally.go lines 144-158: reject
diff-requiring modes before touching the sequence, otherwise run the
sequential engine on the shard. -/
def TallyCommitsApply (wtreeset : List String) (allowOutsideWorktree : Bool)
    (opts : TallyOpts) (commits : List (Except String Commit)) :
    Except String (SMap Tally) :=
  if opts.IsDiffMode then .error unsupportedModeErr
  else tallyCommits commits wtreeset allowOutsideWorktree opts

/-- Merge function of the simple pipeline, tally.go lines 160-174: entrywise
sum of commit counts and maximum of last-commit times, written into operand
`b`; for a shared key every other field keeps operand `a`'s value. -/
def TallyCommitsMerge (a b : SMap Tally) : SMap Tally :=
  SMap.mergeFold
    (fun _ ta bt? =>
      let bt := bt?.getD zeroTally
      { ta with Commits := ta.Commits + bt.Commits,
                LastCommitTime := max ta.LastCommitTime bt.LastCommitTime })
    a b

/-- Finalize function of the simple pipeline, tally.go lines 176-178. -/
def TallyCommitsFinalize (opts : TallyOpts) (tallies : SMap Tally) :
    List Tally :=
  sortTallies tallies opts.mode

/-- Apply function of the diff pipeline, tally.go lines 193-198. -/
def TallyCommitsDiffApply (wtreeset : List String) (opts : TallyOpts)
    (commits : List (Except String Commit)) :
    Except String (SMap AuthorPaths) :=
  tallyByPaths commits wtreeset opts

/-- Merge function of the diff pipeline, tally.go lines 200-211: table union
written into operand `b`, combining shared authors via `AuthorPaths.Union`. -/
def TallyCommitsDiffMerge (a b : SMap AuthorPaths) : SMap AuthorPaths :=
  SMap.mergeFold
    (fun _ aAuthor bAuthor? =>
      match bAuthor? with
      | some bAuthor => aAuthor.Union bAuthor
      | none => aAuthor)
    a b

/-- Finalize function of the diff pipeline, tally.go lines 213-216. -/
def TallyCommitsDiffFinalize (wtreeset : List String)
    (allowOutsideWorktree : Bool) (opts : TallyOpts)
    (authors : SMap AuthorPaths) : List Tally :=
  sortTallies (sumOverPaths authors wtreeset allowOutsideWorktree) opts.mode

/-- Shape of a parallel reduction run by an external scheduler: leaves are
shards of the commit sequence, inner nodes are `Merge` applications. -/
inductive MTree where
  | leaf : List Commit → MTree
  | node : MTree → MTree → MTree

/-- Shards at the leaves, in tree order. -/
def MTree.shards : MTree → List (List Commit)
  | .leaf s => [s]
  | .node l r => l.shards ++ r.shards

/-- Concatenation of all commits under the tree, in tree order. -/
def MTree.allCommits : MTree → List Commit
  | .leaf s => s
  | .node l r => l.allCommits ++ r.allCommits

/-- Reduction of a shard tree through the simple pipeline: `Apply` at each
leaf, `Merge` at each node. -/
def reduceSimple (wtreeset : List String) (allowOutsideWorktree : Bool)
    (opts : TallyOpts) : MTree → Except String (SMap Tally)
  | .leaf s => TallyCommitsApply wtreeset allowOutsideWorktree opts (s.map .ok)
  | .node l r =>
    match reduceSimple wtreeset allowOutsideWorktree opts l,
          reduceSimple wtreeset allowOutsideWorktree opts r with
    | .ok a, .ok b => .ok (TallyCommitsMerge a b)
    | .error e, _ => .error e
    | _, .error e => .error e

/-- Reduction of a shard tree through the diff pipeline. -/
def reduceDiff (wtreeset : List String) (opts : TallyOpts) :
    MTree → Except String (SMap AuthorPaths)
  | .leaf s => TallyCommitsDiffApply wtreeset opts (s.map .ok)
  | .node l r =>
    match reduceDiff wtreeset opts l, reduceDiff wtreeset opts r with
    | .ok a, .ok b => .ok (TallyCommitsDiffMerge a b)
    | .error e, _ => .error e
    | _, .error e => .error e

/-- Author-name coherence of a commit list: display name and email are a
function of the author key.  This holds of any realistic configuration in
which the key function refines name/email, and is the hypothesis under which
merge order cannot be observed through the name/email fields. -/
abbrev Coherent (nm em : String → String) (opts : TallyOpts)
    (cs : List Commit) : Prop :=
  ∀ c ∈ cs, c.authorName = nm (opts.key c) ∧ c.authorEmail = em (opts.key c)

/-- Number of elements of the list whose author key is `k` (duplicates
counted per delivery). -/
def countKey (opts : TallyOpts) (k : String) (cs : List Commit) : Nat :=
  (cs.filter (fun c => decide (opts.key c = k))).length

/-- Maximum commit date over elements with author key `k` (0 when none). -/
def maxTimeKey (opts : TallyOpts) (k : String) (cs : List Commit) : Nat :=
  (cs.filter (fun c => decide (opts.key c = k))).foldl
    (fun m c => max c.date m) 0

/-- Contribution events of author key `k` at path `p`: the commits with key
`k` paired with each of their diffs whose path is `p`, in list order. -/
def touchesOf (opts : TallyOpts) (k p : String) (cs : List Commit) :
    List (Commit × FileDiff) :=
  (cs.filter (fun c => decide (opts.key c = k))).flatMap
    (fun c => (c.fileDiffs.filter (fun d => decide (d.path = p))).map
      (fun d => (c, d)))

/-- Aggregate partial of a non-empty list of contribution events: the
deduplicating hash set, the summed line deltas, the maximum timestamp, and a
tallied count of 1. -/
def touchVal (ts : List (Commit × FileDiff)) : intermediateTally :=
  { commitset := (ts.map (fun e => e.1.hash)).toFinset
    added := (ts.map (fun e => e.2.linesAdded)).sum
    removed := (ts.map (fun e => e.2.linesRemoved)).sum
    lastCommitTime := ts.foldl (fun m e => max e.1.date m) 0
    numTallied := 1 }

/-- Expected per-path partial of author key `k` at path `p` after tallying
`cs`: present iff the path was touched. -/
def pathChar (opts : TallyOpts) (k p : String) (cs : List Commit) :
    Option intermediateTally :=
  let ts := touchesOf opts k p cs
  if ts = [] then none else some (touchVal ts)

/-- Expected simple-strategy entry for author key `k` after tallying `cs`
under a coherent naming. -/
def simpleChar (opts : TallyOpts) (nm em : String → String) (k : String)
    (cs : List Commit) : Option Tally :=
  if countKey opts k cs = 0 then none
  else some
    { AuthorName := nm k, AuthorEmail := em k, Commits := countKey opts k cs,
      LinesAdded := 0, LinesRemoved := 0, FileCount := 0,
      LastCommitTime := maxTimeKey opts k cs }

/-- Set of commit hashes of author key `k` touching at least one path that
passes the filter; the dedup law says the final commit count is the
cardinality of this set. -/
def qualSet (opts : TallyOpts) (w : List String) (allow : Bool) (k : String)
    (cs : List Commit) : Finset String :=
  ((cs.filter (fun c => decide (opts.key c = k) &&
      c.fileDiffs.any (fun d => decide (d.path ∈ w) || allow))).map
    Commit.hash).toFinset

/-- Commit count recorded for key `k` in a final tally map (0 when absent). -/
def commitsOf (m : SMap Tally) (k : String) : Nat :=
  ((SMap.find m k).map Tally.Commits).getD 0

/-- Disjoint-touches condition on a shard list: no author-path pair is
touched in two distinct shards.  Required by the diff pipeline because the
spec's table union combines shared per-path partials by summing their
tallied counts. -/
abbrev NoSharedTouch (opts : TallyOpts) (shards : List (List Commit)) : Prop :=
  shards.Pairwise (fun s₁ s₂ =>
    ∀ c₁ ∈ s₁, ∀ c₂ ∈ s₂, opts.key c₁ = opts.key c₂ →
      ∀ d₁ ∈ c₁.fileDiffs, ∀ d₂ ∈ c₂.fileDiffs, d₁.path ≠ d₂.path)

/-! Concrete example data used by witnesses and counterexamples: the
scenario of spec section 8 (authors A and B), a pair of commits sharing one
author key but spelling the display name differently, and small partial
tallies. -/

def tcA : Commit :=
  ⟨ "c1", "A", "a@x", 10, [⟨ "x.go", 10, 0⟩, ⟨ "y.go", 5, 0⟩]⟩

def tcB : Commit := ⟨ "c2", "B", "b@x", 20, [⟨ "z.go", 3, 0⟩]⟩

def wOpts : TallyOpts := ⟨.LinesMode, fun c => c.authorEmail⟩

def wTree : MTree := .node (.leaf [tcA]) (.leaf [tcB])

def wNm : String → String := fun k => if k = "a@x" then "A" else "B"

def wEm : String → String := fun k => k

def cexC1 : Commit := ⟨ "h1", "Alice", "k@x", 5, []⟩

def cexC2 : Commit := ⟨ "h2", "Bob", "k@x", 5, []⟩

def cexOpts : TallyOpts := ⟨.CommitMode, fun c => c.authorEmail⟩

def cexTree : MTree := .node (.leaf [cexC1]) (.leaf [cexC2])

def cexP1 : SMap Tally := [( "k@x", ⟨ "Alice", "k@x", 1, 0, 0, 0, 5⟩)]

def cexP2 : SMap Tally := [( "k@x", ⟨ "Bob", "k@x", 1, 0, 0, 0, 5⟩)]

def cexIT1 : intermediateTally := ⟨{ "c1" }, 3, 1, 7, 1⟩

def cexIT2 : intermediateTally := ⟨{ "c2" }, 4, 2, 9, 1⟩

def wAuthorA : AuthorPaths :=
  ⟨ "A", "a@x",
    [( "x.go", ⟨{ "c1" }, 10, 0, 10, 1⟩),
     ( "z.go", ⟨{ "c9" }, 3, 0, 4, 1⟩)]⟩

def wAuthors : SMap AuthorPaths := [( "a@x", wAuthorA)]

def wAgree : SMap Tally := [( "k@x", ⟨ "Alice", "k@x", 3, 0, 0, 0, 9⟩)]

/-! Basic facts about the key order. -/

theorem keyLt_trans {a b c : String} (h1 : keyLt a b) (h2 : keyLt b c) :
    keyLt a c :=
  trans_of (List.Lex (· < ·)) h1 h2

theorem keyLt_irrefl (a : String) : ¬ keyLt a a :=
  irrefl_of (List.Lex (· < ·)) a.data

theorem lexCharTrich : ∀ (l₁ l₂ : List Char),
    List.Lex (· < ·) l₁ l₂ ∨ l₁ = l₂ ∨ List.Lex (· < ·) l₂ l₁
  | [], [] => Or.inr (Or.inl rfl)
  | [], _ :: _ => Or.inl List.Lex.nil
  | _ :: _, [] => Or.inr (Or.inr List.Lex.nil)
  | a :: s, b :: t => by
    rcases lt_trichotomy a b with h | h | h
    · exact Or.inl (List.Lex.rel h)
    · subst h
      rcases lexCharTrich s t with h' | h' | h'
      · exact Or.inl (List.Lex.cons h')
      · exact Or.inr (Or.inl (by rw [h']))
      · exact Or.inr (Or.inr (List.Lex.cons h'))
    · exact Or.inr (Or.inr (List.Lex.rel h))

theorem keyLt_trichotomy (a b : String) : keyLt a b ∨ a = b ∨ keyLt b a := by
  rcases lexCharTrich a.data b.data with h | h | h
  · exact Or.inl h
  · refine Or.inr (Or.inl ?_)
    cases a
    cases b
    simp_all
  · exact Or.inr (Or.inr h)

theorem keyLt_ne {a b : String} (h : keyLt a b) : a ≠ b := by
  intro he
  subst he
  exact keyLt_irrefl a h

theorem keyLt_of_not_of_ne {a b : String} (h1 : ¬ keyLt a b) (h2 : a ≠ b) :
    keyLt b a := by
  rcases keyLt_trichotomy a b with h | h | h
  · exact absurd h h1
  · exact absurd h h2
  · exact h

/-! Lemmas about the canonical map model. -/

theorem SMap.find_upsert_self {V : Type} (m : SMap V) (k : String) (v : V) :
    SMap.find (SMap.upsert m k v) k = some v := by
  induction m with
  | nil => simp [SMap.upsert, SMap.find]
  | cons hd tl ih =>
    obtain ⟨k', v'⟩ := hd
    by_cases h1 : keyLt k k'
    · simp [SMap.upsert, h1, SMap.find]
    · by_cases h2 : k = k'
      · subst h2
        simp [SMap.upsert, keyLt_irrefl k, SMap.find]
      · have h2' : ¬ (k' = k) := fun h => h2 h.symm
        simp [SMap.upsert, h1, h2, SMap.find, h2', ih]

theorem SMap.find_upsert_ne {V : Type} (m : SMap V) (k : String) (v : V)
    (k'' : String) (hne : k'' ≠ k) :
    SMap.find (SMap.upsert m k v) k'' = SMap.find m k'' := by
  have hne' : ¬ (k = k'') := fun h => hne h.symm
  induction m with
  | nil => simp [SMap.upsert, SMap.find, hne']
  | cons hd tl ih =>
    obtain ⟨k', v'⟩ := hd
    by_cases h1 : keyLt k k'
    · simp [SMap.upsert, h1, SMap.find, hne']
    · by_cases h2 : k = k'
      · subst h2
        simp [SMap.upsert, h1, SMap.find, hne']
      · simp [SMap.upsert, h1, h2, SMap.find, ih]

theorem SMap.mem_keys_upsert {V : Type} {m : SMap V} {k : String} {v : V}
    {x : String} (hx : x ∈ (SMap.upsert m k v).map Prod.fst) :
    x = k ∨ x ∈ m.map Prod.fst := by
  induction m with
  | nil => simpa [SMap.upsert] using hx
  | cons hd tl ih =>
    obtain ⟨k', v'⟩ := hd
    by_cases h1 : keyLt k k'
    · simp only [SMap.upsert, if_pos h1, List.map_cons, List.mem_cons] at hx
      rcases hx with h | h | h
      · exact Or.inl h
      · exact Or.inr (by simp [h])
      · exact Or.inr (by simp [h])
    · by_cases h2 : k = k'
      · simp only [SMap.upsert, if_neg h1, if_pos h2, List.map_cons,
          List.mem_cons] at hx
        rcases hx with h | h
        · exact Or.inl h
        · exact Or.inr (by simp [h])
      · simp only [SMap.upsert, if_neg h1, if_neg h2, List.map_cons,
          List.mem_cons] at hx
        rcases hx with h | h
        · exact Or.inr (by simp [h])
        · rcases ih h with h' | h'
          · exact Or.inl h'
          · exact Or.inr (by simp [h'])

theorem SMap.canon_nil {V : Type} : SMap.Canon ([] : SMap V) := by
  simp [SMap.Canon]

theorem SMap.canon_upsert {V : Type} {m : SMap V} (h : SMap.Canon m)
    (k : String) (v : V) : SMap.Canon (SMap.upsert m k v) := by
  induction m with
  | nil => simp [SMap.upsert, SMap.Canon]
  | cons hd tl ih =>
    obtain ⟨k', v'⟩ := hd
    rw [SMap.Canon, List.map_cons, List.pairwise_cons] at h
    obtain ⟨hlt, htl⟩ := h
    by_cases h1 : keyLt k k'
    · rw [SMap.Canon]
      simp only [SMap.upsert, if_pos h1, List.map_cons]
      rw [List.pairwise_cons]
      constructor
      · intro x hx
        rcases List.mem_cons.mp hx with h | h
        · exact h ▸ h1
        · exact keyLt_trans h1 (hlt x h)
      · rw [List.pairwise_cons]
        exact ⟨hlt, htl⟩
    · by_cases h2 : k = k'
      · subst h2
        rw [SMap.Canon]
        have hup : SMap.upsert ((k, v') :: tl) k v = (k, v) :: tl := by
          simp [SMap.upsert, h1]
        rw [hup, List.map_cons, List.pairwise_cons]
        exact ⟨hlt, htl⟩
      · have h3 : keyLt k' k := keyLt_of_not_of_ne h1 h2
        rw [SMap.Canon]
        simp only [SMap.upsert, if_neg h1, if_neg h2, List.map_cons]
        rw [List.pairwise_cons]
        constructor
        · intro x hx
          rcases SMap.mem_keys_upsert hx with h | h
          · exact h ▸ h3
          · exact hlt x h
        · exact ih htl

theorem SMap.canon_nodup {V : Type} {m : SMap V} (h : SMap.Canon m) :
    (m.map Prod.fst).Nodup :=
  h.imp keyLt_ne

theorem SMap.find_eq_none {V : Type} (m : SMap V) (k : String) :
    SMap.find m k = none ↔ k ∉ m.map Prod.fst := by
  induction m with
  | nil => simp [SMap.find]
  | cons hd tl ih =>
    obtain ⟨k', v'⟩ := hd
    by_cases h : k' = k
    · subst h
      simp [SMap.find]
    · have h' : ¬ (k = k') := fun he => h he.symm
      simp [SMap.find, h, h', ih]

theorem SMap.find_eq_some_of_mem {V : Type} {m : SMap V} (hc : SMap.Canon m)
    {k : String} {v : V} (hm : (k, v) ∈ m) : SMap.find m k = some v := by
  induction m with
  | nil => cases hm
  | cons hd tl ih =>
    obtain ⟨k', v'⟩ := hd
    rw [SMap.Canon, List.map_cons, List.pairwise_cons] at hc
    obtain ⟨hlt, htl⟩ := hc
    rcases List.mem_cons.mp hm with h | h
    · obtain ⟨h1, h2⟩ := Prod.mk.injEq .. ▸ h
      subst h1
      subst h2
      simp [SMap.find]
    · have hk : k ∈ tl.map Prod.fst :=
        List.mem_map.mpr ⟨(k, v), h, rfl⟩
      have : keyLt k' k := hlt k hk
      have hne : ¬ (k' = k) := keyLt_ne this
      simp [SMap.find, hne]
      exact ih htl h

theorem SMap.mem_of_find_eq_some {V : Type} {m : SMap V} {k : String} {v : V}
    (h : SMap.find m k = some v) : (k, v) ∈ m := by
  induction m with
  | nil => simp [SMap.find] at h
  | cons hd tl ih =>
    obtain ⟨k', v'⟩ := hd
    by_cases he : k' = k
    · subst he
      simp [SMap.find] at h
      simp [h]
    · simp [SMap.find, he] at h
      exact List.mem_cons.mpr (Or.inr (ih h))

theorem SMap.find_head_lt {V : Type} {m : SMap V}
    {k : String} (hlt : ∀ x ∈ m.map Prod.fst, keyLt k x) :
    SMap.find m k = none := by
  rw [SMap.find_eq_none]
  intro hmem
  exact keyLt_irrefl k (hlt k hmem)

theorem SMap.ext_canon {V : Type} :
    ∀ {a b : SMap V}, SMap.Canon a → SMap.Canon b →
      (∀ k, SMap.find a k = SMap.find b k) → a = b
  | [], [], _, _, _ => rfl
  | [], (k₁, v₁) :: b, _, _, h => by
    have := h k₁
    simp [SMap.find] at this
  | (k₀, v₀) :: a, [], _, _, h => by
    have := h k₀
    simp [SMap.find] at this
  | (k₀, v₀) :: a, (k₁, v₁) :: b, ha, hb, h => by
    rw [SMap.Canon, List.map_cons, List.pairwise_cons] at ha hb
    obtain ⟨hlta, hta⟩ := ha
    obtain ⟨hltb, htb⟩ := hb
    have hk : k₀ = k₁ := by
      rcases keyLt_trichotomy k₀ k₁ with hlt | he | hgt
      · exfalso
        have h0 := h k₀
        rw [show SMap.find ((k₀, v₀) :: a) k₀ = some v₀ by simp [SMap.find]]
          at h0
        have : SMap.find ((k₁, v₁) :: b) k₀ = none := by
          have hne : ¬ (k₁ = k₀) := fun he => keyLt_ne hlt he.symm
          simp [SMap.find, hne]
          rw [SMap.find_eq_none]
          intro hmem
          exact keyLt_irrefl k₀ (keyLt_trans hlt (hltb k₀ hmem))
        rw [this] at h0
        cases h0
      · exact he
      · exfalso
        have h0 := h k₁
        rw [show SMap.find ((k₁, v₁) :: b) k₁ = some v₁ by simp [SMap.find]]
          at h0
        have : SMap.find ((k₀, v₀) :: a) k₁ = none := by
          have hne : ¬ (k₀ = k₁) := fun he => keyLt_ne hgt he.symm
          simp [SMap.find, hne]
          rw [SMap.find_eq_none]
          intro hmem
          exact keyLt_irrefl k₁ (keyLt_trans hgt (hlta k₁ hmem))
        rw [this] at h0
        cases h0
    subst hk
    have hv : v₀ = v₁ := by
      have h0 := h k₀
      simp [SMap.find] at h0
      exact h0
    subst hv
    have htail : ∀ k, SMap.find a k = SMap.find b k := by
      intro k
      by_cases he : k = k₀
      · subst he
        have ha0 : SMap.find a k = none :=
          SMap.find_head_lt (fun x hx => hlta x hx)
        have hb0 : SMap.find b k = none :=
          SMap.find_head_lt (fun x hx => hltb x hx)
        rw [ha0, hb0]
      · have h0 := h k
        have hne : ¬ (k₀ = k) := fun h' => he h'.symm
        simpa [SMap.find, hne] using h0
    rw [SMap.ext_canon hta htb htail]

theorem SMap.find_mergeFold {V W : Type} (f : String → V → Option W → W) :
    ∀ (a : SMap V) (b : SMap W), (a.map Prod.fst).Nodup → ∀ k,
      SMap.find (SMap.mergeFold f a b) k =
        match SMap.find a k with
        | some v => some (f k v (SMap.find b k))
        | none => SMap.find b k
  | [], b, _, k => by simp [SMap.mergeFold, SMap.find]
  | (k₀, v₀) :: a, b, hnd, k => by
    rw [List.map_cons, List.nodup_cons] at hnd
    obtain ⟨hk₀, hnd⟩ := hnd
    have hstep : SMap.mergeFold f ((k₀, v₀) :: a) b
        = SMap.mergeFold f a (SMap.upsert b k₀ (f k₀ v₀ (SMap.find b k₀))) :=
      rfl
    rw [hstep, SMap.find_mergeFold f a _ hnd k]
    by_cases he : k = k₀
    · subst he
      have ha : SMap.find a k = none := (SMap.find_eq_none a k).mpr hk₀
      rw [ha]
      have hhd : SMap.find ((k, v₀) :: a) k = some v₀ := by simp [SMap.find]
      rw [hhd, SMap.find_upsert_self]
    · have hne : ¬ (k₀ = k) := fun h' => he h'.symm
      have hhd : SMap.find ((k₀, v₀) :: a) k = SMap.find a k := by
        simp [SMap.find, hne]
      rw [hhd, SMap.find_upsert_ne _ _ _ _ he]

theorem SMap.canon_mergeFold {V W : Type} (f : String → V → Option W → W) :
    ∀ (a : SMap V) {b : SMap W}, SMap.Canon b →
      SMap.Canon (SMap.mergeFold f a b)
  | [], _, hb => hb
  | (_, _) :: a, _, hb =>
    SMap.canon_mergeFold f a (SMap.canon_upsert hb _ _)

theorem SMap.canon_foldl {V α : Type} (step : SMap V → α → SMap V)
    (hstep : ∀ m x, SMap.Canon m → SMap.Canon (step m x)) :
    ∀ (l : List α) (m : SMap V), SMap.Canon m → SMap.Canon (l.foldl step m)
  | [], _, hm => hm
  | x :: l, m, hm => SMap.canon_foldl step hstep l (step m x) (hstep m x hm)

/-! Behaviour of the two iteration loops on error-free and erroneous input. -/

theorem tallySimpleLoop_ok (opts : TallyOpts) :
    ∀ (cs : List Commit) (m : SMap Tally),
      tallySimpleLoop opts m (cs.map .ok)
        = .ok (cs.foldl (tallySimpleStep opts) m)
  | [], _ => rfl
  | _ :: cs, _ => tallySimpleLoop_ok opts cs _

theorem tallySimpleLoop_error (opts : TallyOpts) :
    ∀ (pre : List Commit) (m : SMap Tally) (e : String)
      (rest : List (Except String Commit)),
      tallySimpleLoop opts m (pre.map .ok ++ .error e :: rest)
        = .error (iterErrMsg ++ e)
  | [], _, _, _ => rfl
  | _ :: pre, _, e, rest => tallySimpleLoop_error opts pre _ e rest

theorem tallyByPathsLoop_ok (opts : TallyOpts) :
    ∀ (cs : List Commit) (m : SMap AuthorPaths),
      tallyByPathsLoop opts m (cs.map .ok)
        = .ok (cs.foldl (tallyByPathsStep opts) m)
  | [], _ => rfl
  | _ :: cs, _ => tallyByPathsLoop_ok opts cs _

theorem tallyByPathsLoop_error (opts : TallyOpts) :
    ∀ (pre : List Commit) (m : SMap AuthorPaths) (e : String)
      (rest : List (Except String Commit)),
      tallyByPathsLoop opts m (pre.map .ok ++ .error e :: rest)
        = .error (iterErrMsg ++ e)
  | [], _, _, _ => rfl
  | _ :: pre, _, e, rest => tallyByPathsLoop_error opts pre _ e rest

theorem tallyByPaths_ok (opts : TallyOpts) (w : List String)
    (cs : List Commit) :
    tallyByPaths (cs.map .ok) w opts = .ok (tableOf opts cs) :=
  tallyByPathsLoop_ok opts cs []

theorem canon_tallySimpleStep (opts : TallyOpts) (m : SMap Tally) (c : Commit)
    (h : SMap.Canon m) : SMap.Canon (tallySimpleStep opts m c) :=
  SMap.canon_upsert h _ _

theorem canon_tallyByPathsStep (opts : TallyOpts) (m : SMap AuthorPaths)
    (c : Commit) (h : SMap.Canon m) :
    SMap.Canon (tallyByPathsStep opts m c) :=
  SMap.canon_upsert h _ _

theorem canon_tableOf (opts : TallyOpts) (cs : List Commit) :
    SMap.Canon (tableOf opts cs) :=
  SMap.canon_foldl _ (canon_tallyByPathsStep opts) cs [] SMap.canon_nil

theorem canon_simpleFold (opts : TallyOpts) (cs : List Commit) :
    SMap.Canon (cs.foldl (tallySimpleStep opts) []) :=
  SMap.canon_foldl _ (canon_tallySimpleStep opts) cs [] SMap.canon_nil

/-! Counting helpers for the simple strategy. -/

theorem countKey_nil (opts : TallyOpts) (k : String) :
    countKey opts k [] = 0 := rfl

theorem countKey_append (opts : TallyOpts) (k : String) (xs : List Commit)
    (c : Commit) :
    countKey opts k (xs ++ [c])
      = countKey opts k xs + (if opts.key c = k then 1 else 0) := by
  by_cases h : opts.key c = k
  · simp [countKey, List.filter_append, h]
  · simp [countKey, List.filter_append, h]

theorem maxTimeKey_append (opts : TallyOpts) (k : String) (xs : List Commit)
    (c : Commit) :
    maxTimeKey opts k (xs ++ [c])
      = if opts.key c = k then max c.date (maxTimeKey opts k xs)
        else maxTimeKey opts k xs := by
  by_cases h : opts.key c = k
  · simp [maxTimeKey, List.filter_append, h]
  · simp [maxTimeKey, List.filter_append, h]

theorem maxTimeKey_of_countKey_zero (opts : TallyOpts) (k : String)
    {xs : List Commit} (h : countKey opts k xs = 0) :
    maxTimeKey opts k xs = 0 := by
  rw [countKey] at h
  rw [maxTimeKey, List.length_eq_zero.mp h]
  rfl

theorem coherent_append_left {nm em : String → String} {opts : TallyOpts}
    {xs ys : List Commit} (h : Coherent nm em opts (xs ++ ys)) :
    Coherent nm em opts xs :=
  fun c hc => h c (List.mem_append.mpr (Or.inl hc))

theorem coherent_append_right {nm em : String → String} {opts : TallyOpts}
    {xs ys : List Commit} (h : Coherent nm em opts (xs ++ ys)) :
    Coherent nm em opts ys :=
  fun c hc => h c (List.mem_append.mpr (Or.inr hc))

theorem simpleFold_find (opts : TallyOpts) (nm em : String → String) :
    ∀ (cs : List Commit), Coherent nm em opts cs → ∀ k,
      SMap.find (cs.foldl (tallySimpleStep opts) []) k
        = simpleChar opts nm em k cs := by
  intro cs
  induction cs using List.reverseRecOn with
  | nil =>
    intro _ k
    simp [SMap.find, simpleChar, countKey]
  | append_singleton xs c ih =>
    intro hcoh k
    have hxs := coherent_append_left hcoh
    have hc := hcoh c (List.mem_append.mpr (Or.inr (List.mem_singleton.mpr rfl)))
    rw [List.foldl_append]
    simp only [List.foldl_cons, List.foldl_nil]
    rw [tallySimpleStep]
    by_cases hk : opts.key c = k
    · rw [hk, SMap.find_upsert_self, ih hxs k]
      have hcnt : countKey opts k (xs ++ [c]) = countKey opts k xs + 1 := by
        rw [countKey_append, if_pos hk]
      have hmax : maxTimeKey opts k (xs ++ [c])
          = max c.date (maxTimeKey opts k xs) := by
        rw [maxTimeKey_append, if_pos hk]
      have hnm : c.authorName = nm k := by rw [← hk]; exact hc.1
      have hem : c.authorEmail = em k := by rw [← hk]; exact hc.2
      have hne1 : ¬ (countKey opts k (xs ++ [c]) = 0) := by omega
      simp only [simpleChar]
      rw [if_neg hne1]
      by_cases h0 : countKey opts k xs = 0
      · rw [if_pos h0, hcnt, hmax, h0, maxTimeKey_of_countKey_zero opts k h0]
        simp [zeroTally, hnm, hem]
      · rw [if_neg h0, hcnt, hmax]
        simp [hnm, hem]
    · rw [SMap.find_upsert_ne _ _ _ _ (fun h => hk h.symm)]
      rw [ih hxs k]
      simp only [simpleChar]
      rw [countKey_append, maxTimeKey_append, if_neg hk, if_neg hk]
      simp

theorem simpleFold_stats (opts : TallyOpts) :
    ∀ (cs : List Commit) (k : String),
      (∀ t, SMap.find (cs.foldl (tallySimpleStep opts) []) k = some t →
        t.Commits = countKey opts k cs ∧ t.LinesAdded = 0 ∧
          t.LinesRemoved = 0 ∧ t.FileCount = 0) ∧
      (SMap.find (cs.foldl (tallySimpleStep opts) []) k = none →
        countKey opts k cs = 0) := by
  intro cs
  induction cs using List.reverseRecOn with
  | nil =>
    intro k
    constructor
    · intro t ht
      simp [SMap.find] at ht
    · intro _
      rfl
  | append_singleton xs c ih =>
    intro k
    rw [List.foldl_append]
    simp only [List.foldl_cons, List.foldl_nil]
    rw [tallySimpleStep]
    by_cases hk : opts.key c = k
    · rw [hk]
      constructor
      · intro t ht
        rw [SMap.find_upsert_self] at ht
        have ht' := ht.symm
        rw [countKey_append, if_pos hk]
        cases hf : SMap.find (xs.foldl (tallySimpleStep opts) []) k with
        | none =>
          rw [hf] at ht'
          have h0 := (ih k).2 hf
          have heq := Option.some.inj ht'
          subst heq
          simp [zeroTally, h0]
        | some t0 =>
          rw [hf] at ht'
          have hst := (ih k).1 t0 hf
          have heq := Option.some.inj ht'
          subst heq
          simp [hst.1, hst.2.1, hst.2.2.1, hst.2.2.2]
      · intro hnone
        rw [SMap.find_upsert_self] at hnone
        cases hnone
    · constructor
      · intro t ht
        rw [SMap.find_upsert_ne _ _ _ _ (fun h => hk h.symm)] at ht
        rw [countKey_append, if_neg hk]
        have := (ih k).1 t ht
        simpa using this
      · intro hnone
        rw [SMap.find_upsert_ne _ _ _ _ (fun h => hk h.symm)] at hnone
        rw [countKey_append, if_neg hk]
        have := (ih k).2 hnone
        simpa using this

/-! Algebra of the simple merge. -/

theorem find_TallyCommitsMerge {a b : SMap Tally} (ha : SMap.Canon a)
    (k : String) :
    SMap.find (TallyCommitsMerge a b) k =
      match SMap.find a k with
      | some ta =>
        some { ta with
          Commits := ta.Commits + ((SMap.find b k).getD zeroTally).Commits,
          LastCommitTime := max ta.LastCommitTime
            ((SMap.find b k).getD zeroTally).LastCommitTime }
      | none => SMap.find b k := by
  rw [TallyCommitsMerge, SMap.find_mergeFold _ a b (SMap.canon_nodup ha) k]
  cases SMap.find a k <;> rfl

theorem canon_TallyCommitsMerge (a : SMap Tally) {b : SMap Tally}
    (hb : SMap.Canon b) : SMap.Canon (TallyCommitsMerge a b) :=
  SMap.canon_mergeFold _ a hb

theorem countKey_append_gen (opts : TallyOpts) (k : String)
    (xs ys : List Commit) :
    countKey opts k (xs ++ ys) = countKey opts k xs + countKey opts k ys := by
  simp [countKey, List.filter_append]

theorem maxFold_init : ∀ (l : List Commit) (i : Nat),
    l.foldl (fun m c => max c.date m) i
      = max i (l.foldl (fun m c => max c.date m) 0)
  | [], i => by simp
  | c :: t, i => by
    simp only [List.foldl_cons]
    rw [maxFold_init t (max c.date i), maxFold_init t (max c.date 0)]
    simp [Nat.max_comm, Nat.max_assoc, Nat.max_left_comm]

theorem maxTimeKey_append_gen (opts : TallyOpts) (k : String)
    (xs ys : List Commit) :
    maxTimeKey opts k (xs ++ ys)
      = max (maxTimeKey opts k xs) (maxTimeKey opts k ys) := by
  rw [maxTimeKey, maxTimeKey, maxTimeKey, List.filter_append,
    List.foldl_append]
  exact maxFold_init _ _

theorem mergeSimple_char (opts : TallyOpts) (nm em : String → String)
    (xs ys : List Commit) {a b : SMap Tally} (ha : SMap.Canon a)
    (hax : ∀ k, SMap.find a k = simpleChar opts nm em k xs)
    (hby : ∀ k, SMap.find b k = simpleChar opts nm em k ys) (k : String) :
    SMap.find (TallyCommitsMerge a b) k
      = simpleChar opts nm em k (xs ++ ys) := by
  rw [find_TallyCommitsMerge ha k, hax k, hby k]
  simp only [simpleChar, countKey_append_gen, maxTimeKey_append_gen]
  by_cases hx : countKey opts k xs = 0
  · by_cases hy : countKey opts k ys = 0
    · rw [if_pos hx, if_pos hy, if_pos (by omega)]
    · rw [if_pos hx, if_neg hy, if_neg (by omega), hx,
        maxTimeKey_of_countKey_zero opts k hx]
      simp [zeroTally]
  · by_cases hy : countKey opts k ys = 0
    · rw [if_neg hx, if_pos hy, if_neg (by omega), hy,
        maxTimeKey_of_countKey_zero opts k hy]
      simp [zeroTally]
    · rw [if_neg hx, if_neg hy, if_neg (by omega)]
      simp [zeroTally]

theorem simpleChar_perm (opts : TallyOpts) (nm em : String → String)
    (k : String) {cs cs' : List Commit} (h : cs.Perm cs') :
    simpleChar opts nm em k cs = simpleChar opts nm em k cs' := by
  have hcnt : countKey opts k cs = countKey opts k cs' :=
    (h.filter _).length_eq
  have hmax : maxTimeKey opts k cs = maxTimeKey opts k cs' := by
    rw [maxTimeKey, maxTimeKey]
    exact (h.filter _).foldl_eq'
      (fun x _ y _ z => by
        simp [Nat.max_comm, Nat.max_assoc, Nat.max_left_comm]) 0
  rw [simpleChar, simpleChar, hcnt, hmax]

theorem coherent_perm {nm em : String → String} {opts : TallyOpts}
    {cs cs' : List Commit} (h : cs.Perm cs')
    (hcoh : Coherent nm em opts cs') : Coherent nm em opts cs :=
  fun c hc => hcoh c (h.mem_iff.mp hc)

theorem tallyCommits_simple (opts : TallyOpts) (w : List String)
    (cs : List Commit) (hmode : opts.IsDiffMode = false) :
    tallyCommits (cs.map .ok) w true opts
      = .ok (cs.foldl (tallySimpleStep opts) []) := by
  rw [tallyCommits, hmode]
  exact tallySimpleLoop_ok opts cs []

theorem reduceSimple_ok (opts : TallyOpts) (w : List String)
    (hmode : opts.IsDiffMode = false) (nm em : String → String) :
    ∀ (t : MTree), Coherent nm em opts t.allCommits →
      ∃ m, reduceSimple w true opts t = .ok m ∧ SMap.Canon m ∧
        ∀ k, SMap.find m k = simpleChar opts nm em k t.allCommits
  | .leaf s, hcoh => by
    refine ⟨s.foldl (tallySimpleStep opts) [], ?_, canon_simpleFold opts s, ?_⟩
    · rw [reduceSimple, TallyCommitsApply, hmode]
      simp only [Bool.false_eq_true, if_false]
      exact tallyCommits_simple opts w s hmode
    · exact simpleFold_find opts nm em s hcoh
  | .node l r, hcoh => by
    obtain ⟨ml, hl, hlc, hlx⟩ :=
      reduceSimple_ok opts w hmode nm em l (coherent_append_left hcoh)
    obtain ⟨mr, hr, hrc, hrx⟩ :=
      reduceSimple_ok opts w hmode nm em r (coherent_append_right hcoh)
    refine ⟨TallyCommitsMerge ml mr, ?_, canon_TallyCommitsMerge ml hrc, ?_⟩
    · rw [reduceSimple, hl, hr]
    · exact mergeSimple_char opts nm em l.allCommits r.allCommits hlc hlx hrx

/-! Characterisation of the author-paths table construction. -/

theorem pathChar_eq (opts : TallyOpts) (k p : String) (cs : List Commit) :
    pathChar opts k p cs
      = if touchesOf opts k p cs = [] then none
        else some (touchVal (touchesOf opts k p cs)) := rfl

theorem touchesOf_append (opts : TallyOpts) (k p : String)
    (xs ys : List Commit) :
    touchesOf opts k p (xs ++ ys)
      = touchesOf opts k p xs ++ touchesOf opts k p ys := by
  rw [touchesOf, touchesOf, touchesOf, List.filter_append,
    List.flatMap_append]

theorem touchesOf_singleton (opts : TallyOpts) (k p : String) (c : Commit) :
    touchesOf opts k p [c]
      = if opts.key c = k
        then (c.fileDiffs.filter (fun d => decide (d.path = p))).map
          (fun d => (c, d))
        else [] := by
  by_cases h : opts.key c = k
  · simp [touchesOf, h]
  · simp [touchesOf, h]

theorem touchesOf_eq_nil (opts : TallyOpts) (k p : String)
    {cs : List Commit} (h : ∀ c ∈ cs, opts.key c ≠ k) :
    touchesOf opts k p cs = [] := by
  rw [touchesOf]
  have : cs.filter (fun c => decide (opts.key c = k)) = [] :=
    List.filter_eq_nil_iff.mpr (by simpa using h)
  rw [this]
  rfl

theorem mem_touchesOf {opts : TallyOpts} {k p : String} {cs : List Commit}
    {e : Commit × FileDiff} :
    e ∈ touchesOf opts k p cs ↔
      e.1 ∈ cs ∧ opts.key e.1 = k ∧ e.2 ∈ e.1.fileDiffs ∧ e.2.path = p := by
  constructor
  · intro h
    rw [touchesOf] at h
    obtain ⟨c, hc, hm⟩ := List.mem_flatMap.mp h
    obtain ⟨hc1, hc2⟩ := List.mem_filter.mp hc
    obtain ⟨d, hd, hde⟩ := List.mem_map.mp hm
    obtain ⟨hd1, hd2⟩ := List.mem_filter.mp hd
    subst hde
    exact ⟨hc1, of_decide_eq_true hc2, hd1, of_decide_eq_true hd2⟩
  · rintro ⟨h1, h2, h3, h4⟩
    rw [touchesOf]
    refine List.mem_flatMap.mpr ⟨e.1,
      List.mem_filter.mpr ⟨h1, by simp [h2]⟩,
      List.mem_map.mpr ⟨e.2, List.mem_filter.mpr ⟨h3, by simp [h4]⟩, rfl⟩⟩

theorem touchVal_append_singleton (ts : List (Commit × FileDiff))
    (e : Commit × FileDiff) :
    touchVal (ts ++ [e]) = (touchVal ts).Add (commitPartial e.1 e.2) := by
  rw [touchVal, touchVal, intermediateTally.Add, commitPartial]
  simp [List.foldl_append, List.toFinset_append, Nat.max_comm]

theorem touchVal_single_eq (e : Commit × FileDiff) :
    touchVal [e] = (newTally 1).Add (commitPartial e.1 e.2) := by
  rw [touchVal, newTally, intermediateTally.Add, commitPartial]
  simp

theorem diffFold_name (c : Commit) :
    ∀ (ds : List FileDiff) (a : AuthorPaths),
      (ds.foldl (diffStep c) a).name = a.name ∧
        (ds.foldl (diffStep c) a).email = a.email
  | [], _ => ⟨rfl, rfl⟩
  | d :: ds, a => diffFold_name c ds (diffStep c a d)

theorem diffFold_canon (c : Commit) :
    ∀ (ds : List FileDiff) (a : AuthorPaths), SMap.Canon a.paths →
      SMap.Canon (ds.foldl (diffStep c) a).paths
  | [], _, h => h
  | _ :: ds, _, h => diffFold_canon c ds _ (SMap.canon_upsert h _ _)

theorem diffFold_find (c : Commit) :
    ∀ (ds : List FileDiff) (a : AuthorPaths) (p : String),
      SMap.find (ds.foldl (diffStep c) a).paths p
        = (ds.filter (fun d => decide (d.path = p))).foldl
            (fun o d => some ((o.getD (newTally 1)).Add (commitPartial c d)))
            (SMap.find a.paths p)
  | [], _, _ => rfl
  | d :: ds, a, p => by
    simp only [List.foldl_cons, List.filter_cons]
    by_cases h : d.path = p
    · subst h
      rw [if_pos (by simp)]
      simp only [List.foldl_cons]
      rw [diffFold_find c ds _ d.path]
      congr 1
      show SMap.find (SMap.upsert a.paths d.path _) d.path = _
      rw [SMap.find_upsert_self]
    · rw [if_neg (by simp [h])]
      rw [diffFold_find c ds _ p]
      congr 1
      exact SMap.find_upsert_ne _ _ _ _ (fun he => h he.symm)

theorem optFold_touch (c : Commit) :
    ∀ (fs : List FileDiff) (ts : List (Commit × FileDiff)),
      fs.foldl (fun o d => some ((o.getD (newTally 1)).Add (commitPartial c d)))
          (if ts = [] then none else some (touchVal ts))
        = (if ts ++ fs.map (fun d => (c, d)) = [] then none
           else some (touchVal (ts ++ fs.map (fun d => (c, d)))))
  | [], ts => by simp
  | d :: fs, ts => by
    simp only [List.foldl_cons, List.map_cons]
    by_cases h : ts = []
    · subst h
      rw [if_pos rfl]
      simp only [Option.getD_none]
      have h2 : some ((newTally 1).Add (commitPartial c d))
          = (if ([(c, d)] : List (Commit × FileDiff)) = [] then none
             else some (touchVal [(c, d)])) := by
        rw [if_neg (by simp), touchVal_single_eq]
      rw [h2, optFold_touch c fs [(c, d)]]
      simp
    · rw [if_neg h]
      simp only [Option.getD_some]
      have h2 : some ((touchVal ts).Add (commitPartial c d))
          = (if ts ++ [(c, d)] = [] then none
             else some (touchVal (ts ++ [(c, d)]))) := by
        rw [if_neg (by simp), touchVal_append_singleton]
      rw [h2, optFold_touch c fs (ts ++ [(c, d)])]
      simp

theorem tableOf_append_singleton (opts : TallyOpts) (xs : List Commit)
    (c : Commit) :
    tableOf opts (xs ++ [c]) = tallyByPathsStep opts (tableOf opts xs) c := by
  rw [tableOf, tableOf, List.foldl_append]
  rfl

theorem tableOf_none (opts : TallyOpts) :
    ∀ (cs : List Commit) (k : String),
      SMap.find (tableOf opts cs) k = none ↔ ∀ c ∈ cs, opts.key c ≠ k := by
  intro cs
  induction cs using List.reverseRecOn with
  | nil =>
    intro k
    simp [tableOf, SMap.find]
  | append_singleton xs c ih =>
    intro k
    rw [tableOf_append_singleton]
    simp only [tallyByPathsStep]
    by_cases hk : opts.key c = k
    · rw [hk, SMap.find_upsert_self]
      constructor
      · intro h
        cases h
      · intro h
        exact absurd hk (h c (List.mem_append.mpr (Or.inr (by simp))))
    · rw [SMap.find_upsert_ne _ _ _ _ (fun h => hk h.symm), ih k]
      constructor
      · intro h c' hc'
        rcases List.mem_append.mp hc' with h' | h'
        · exact h c' h'
        · rw [List.mem_singleton.mp h']
          exact hk
      · intro h c' hc'
        exact h c' (List.mem_append.mpr (Or.inl hc'))

theorem tableOf_paths (opts : TallyOpts) :
    ∀ (cs : List Commit) (k : String) (a : AuthorPaths),
      SMap.find (tableOf opts cs) k = some a →
      SMap.Canon a.paths ∧ ∀ p, SMap.find a.paths p = pathChar opts k p cs := by
  intro cs
  induction cs using List.reverseRecOn with
  | nil =>
    intro k a h
    simp [tableOf, SMap.find] at h
  | append_singleton xs c ih =>
    intro k a h
    rw [tableOf_append_singleton] at h
    simp only [tallyByPathsStep] at h
    by_cases hk : opts.key c = k
    · rw [hk, SMap.find_upsert_self] at h
      have ha := (Option.some.inj h).symm
      cases hf : SMap.find (tableOf opts xs) k with
      | some a0 =>
        rw [hf] at ha
        obtain ⟨hcanon0, hchar0⟩ := ih k a0 hf
        constructor
        · rw [ha]
          exact diffFold_canon c _ _ hcanon0
        · intro p
          rw [ha, diffFold_find c _ _ p]
          show (_ : List FileDiff).foldl _
            (SMap.find a0.paths p) = _
          rw [hchar0 p, pathChar_eq, pathChar_eq,
            optFold_touch c (c.fileDiffs.filter (fun d => decide (d.path = p)))
              (touchesOf opts k p xs)]
          rw [touchesOf_append, touchesOf_singleton, if_pos hk]
      | none =>
        rw [hf] at ha
        have hno := (tableOf_none opts xs k).mp hf
        constructor
        · rw [ha]
          exact diffFold_canon c _ _ (by simp [SMap.Canon])
        · intro p
          rw [ha, diffFold_find c _ _ p]
          show (_ : List FileDiff).foldl _
            (SMap.find ([] : SMap intermediateTally) p) = _
          have hnil : touchesOf opts k p xs = [] := touchesOf_eq_nil opts k p hno
          have hinit : SMap.find ([] : SMap intermediateTally) p
              = (if touchesOf opts k p xs = [] then none
                 else some (touchVal (touchesOf opts k p xs))) := by
            rw [hnil, if_pos rfl]
            rfl
          rw [hinit,
            optFold_touch c (c.fileDiffs.filter (fun d => decide (d.path = p)))
              (touchesOf opts k p xs)]
          rw [pathChar_eq, touchesOf_append, touchesOf_singleton, if_pos hk]
    · rw [SMap.find_upsert_ne _ _ _ _ (fun h' => hk h'.symm)] at h
      obtain ⟨hcanon, hchar⟩ := ih k a h
      refine ⟨hcanon, fun p => ?_⟩
      rw [hchar p, pathChar_eq, pathChar_eq, touchesOf_append,
        touchesOf_singleton, if_neg hk, List.append_nil]

theorem tableOf_names (opts : TallyOpts) (nm em : String → String) :
    ∀ (cs : List Commit), Coherent nm em opts cs →
      ∀ (k : String) (a : AuthorPaths),
        SMap.find (tableOf opts cs) k = some a →
        a.name = nm k ∧ a.email = em k := by
  intro cs
  induction cs using List.reverseRecOn with
  | nil =>
    intro _ k a h
    simp [tableOf, SMap.find] at h
  | append_singleton xs c ih =>
    intro hcoh k a h
    have hc := hcoh c (List.mem_append.mpr (Or.inr (by simp)))
    rw [tableOf_append_singleton] at h
    simp only [tallyByPathsStep] at h
    by_cases hk : opts.key c = k
    · rw [hk, SMap.find_upsert_self] at h
      have ha := (Option.some.inj h).symm
      have hnm : c.authorName = nm k := by rw [← hk]; exact hc.1
      have hem : c.authorEmail = em k := by rw [← hk]; exact hc.2
      cases hf : SMap.find (tableOf opts xs) k with
      | some a0 =>
        rw [hf] at ha
        rw [ha, (diffFold_name c _ _).1, (diffFold_name c _ _).2]
        exact ⟨hnm, hem⟩
      | none =>
        rw [hf] at ha
        rw [ha, (diffFold_name c _ _).1, (diffFold_name c _ _).2]
        exact ⟨hnm, hem⟩
    · rw [SMap.find_upsert_ne _ _ _ _ (fun h' => hk h'.symm)] at h
      exact ih (coherent_append_left hcoh) k a h

/-! Algebra of the diff merge. -/

theorem Union_name (a b : AuthorPaths) : (a.Union b).name = a.name := rfl

theorem Union_email (a b : AuthorPaths) : (a.Union b).email = a.email := rfl

theorem Union_paths (a b : AuthorPaths) :
    (a.Union b).paths
      = SMap.mergeFold
          (fun _ pa pb? => match pb? with
            | some pb => pa.Add pb
            | none => pa)
          a.paths b.paths := rfl

theorem Union_canon (a : AuthorPaths) {b : AuthorPaths}
    (hb : SMap.Canon b.paths) : SMap.Canon (a.Union b).paths := by
  rw [Union_paths]
  exact SMap.canon_mergeFold _ a.paths hb

theorem find_Union_paths {a b : AuthorPaths} (ha : SMap.Canon a.paths)
    (p : String) :
    SMap.find (a.Union b).paths p =
      match SMap.find a.paths p with
      | some pa =>
        some (match SMap.find b.paths p with
          | some pb => pa.Add pb
          | none => pa)
      | none => SMap.find b.paths p := by
  rw [Union_paths, SMap.find_mergeFold _ a.paths b.paths
    (SMap.canon_nodup ha) p]
  cases SMap.find a.paths p <;> rfl

theorem find_TallyCommitsDiffMerge {a b : SMap AuthorPaths}
    (ha : SMap.Canon a) (k : String) :
    SMap.find (TallyCommitsDiffMerge a b) k =
      match SMap.find a k with
      | some aA =>
        some (match SMap.find b k with
          | some bA => aA.Union bA
          | none => aA)
      | none => SMap.find b k := by
  rw [TallyCommitsDiffMerge,
    SMap.find_mergeFold _ a b (SMap.canon_nodup ha) k]
  cases SMap.find a k <;> rfl

theorem canon_TallyCommitsDiffMerge (a : SMap AuthorPaths)
    {b : SMap AuthorPaths} (hb : SMap.Canon b) :
    SMap.Canon (TallyCommitsDiffMerge a b) :=
  SMap.canon_mergeFold _ a hb

theorem pathChar_none_iff (opts : TallyOpts) (k p : String)
    (cs : List Commit) :
    pathChar opts k p cs = none ↔ touchesOf opts k p cs = [] := by
  rw [pathChar_eq]
  by_cases h : touchesOf opts k p cs = []
  · simp [h]
  · simp [h]

theorem mem_allCommits : ∀ (t : MTree) (c : Commit),
    c ∈ t.allCommits ↔ ∃ s ∈ t.shards, c ∈ s
  | .leaf s, c => by simp [MTree.allCommits, MTree.shards]
  | .node l r, c => by
    rw [MTree.allCommits, MTree.shards]
    simp only [List.mem_append]
    rw [mem_allCommits l c, mem_allCommits r c]
    constructor
    · rintro (⟨s, hs, hc⟩ | ⟨s, hs, hc⟩)
      · exact ⟨s, Or.inl hs, hc⟩
      · exact ⟨s, Or.inr hs, hc⟩
    · rintro ⟨s, hs | hs, hc⟩
      · exact Or.inl ⟨s, hs, hc⟩
      · exact Or.inr ⟨s, hs, hc⟩

theorem noSharedTouch_node {opts : TallyOpts} {l r : MTree}
    (h : NoSharedTouch opts (MTree.node l r).shards) :
    NoSharedTouch opts l.shards ∧ NoSharedTouch opts r.shards ∧
      ∀ c₁ ∈ l.allCommits, ∀ c₂ ∈ r.allCommits, opts.key c₁ = opts.key c₂ →
        ∀ d₁ ∈ c₁.fileDiffs, ∀ d₂ ∈ c₂.fileDiffs, d₁.path ≠ d₂.path := by
  rw [NoSharedTouch, MTree.shards, List.pairwise_append] at h
  refine ⟨h.1, h.2.1, ?_⟩
  intro c₁ hc₁ c₂ hc₂ hkey d₁ hd₁ d₂ hd₂
  obtain ⟨s₁, hs₁, hcs₁⟩ := (mem_allCommits l c₁).mp hc₁
  obtain ⟨s₂, hs₂, hcs₂⟩ := (mem_allCommits r c₂).mp hc₂
  exact h.2.2 s₁ hs₁ s₂ hs₂ c₁ hcs₁ c₂ hcs₂ hkey d₁ hd₁ d₂ hd₂

theorem mergeDiff_char (opts : TallyOpts) (nm em : String → String)
    {l r : MTree} {ml mr : SMap AuthorPaths}
    (hlc : SMap.Canon ml) (_hrc : SMap.Canon mr)
    (hlx : ∀ k, (SMap.find ml k = none ↔
        ∀ c ∈ l.allCommits, opts.key c ≠ k) ∧
      ∀ a, SMap.find ml k = some a →
        a.name = nm k ∧ a.email = em k ∧ SMap.Canon a.paths ∧
          ∀ p, SMap.find a.paths p = pathChar opts k p l.allCommits)
    (hrx : ∀ k, (SMap.find mr k = none ↔
        ∀ c ∈ r.allCommits, opts.key c ≠ k) ∧
      ∀ a, SMap.find mr k = some a →
        a.name = nm k ∧ a.email = em k ∧ SMap.Canon a.paths ∧
          ∀ p, SMap.find a.paths p = pathChar opts k p r.allCommits)
    (hcross : ∀ c₁ ∈ l.allCommits, ∀ c₂ ∈ r.allCommits,
      opts.key c₁ = opts.key c₂ →
        ∀ d₁ ∈ c₁.fileDiffs, ∀ d₂ ∈ c₂.fileDiffs, d₁.path ≠ d₂.path)
    (k : String) :
    (SMap.find (TallyCommitsDiffMerge ml mr) k = none ↔
      ∀ c ∈ (MTree.node l r).allCommits, opts.key c ≠ k) ∧
    ∀ a, SMap.find (TallyCommitsDiffMerge ml mr) k = some a →
      a.name = nm k ∧ a.email = em k ∧ SMap.Canon a.paths ∧
        ∀ p, SMap.find a.paths p
          = pathChar opts k p (MTree.node l r).allCommits := by
  have hnotwo : ∀ p, pathChar opts k p l.allCommits = none ∨
      pathChar opts k p r.allCommits = none := by
    intro p
    by_contra hcon
    push_neg at hcon
    obtain ⟨h1, h2⟩ := hcon
    have ht1 : touchesOf opts k p l.allCommits ≠ [] := by
      intro h0
      exact h1 ((pathChar_none_iff opts k p _).mpr h0)
    have ht2 : touchesOf opts k p r.allCommits ≠ [] := by
      intro h0
      exact h2 ((pathChar_none_iff opts k p _).mpr h0)
    obtain ⟨e₁, he₁⟩ := List.exists_mem_of_ne_nil _ ht1
    obtain ⟨e₂, he₂⟩ := List.exists_mem_of_ne_nil _ ht2
    obtain ⟨hm₁, hk₁, hd₁, hp₁⟩ := mem_touchesOf.mp he₁
    obtain ⟨hm₂, hk₂, hd₂, hp₂⟩ := mem_touchesOf.mp he₂
    exact hcross e₁.1 hm₁ e₂.1 hm₂ (hk₁.trans hk₂.symm) e₁.2 hd₁ e₂.2 hd₂
      (hp₁.trans hp₂.symm)
  have hmemL : ∀ c ∈ l.allCommits, c ∈ (MTree.node l r).allCommits := by
    intro c hc
    rw [MTree.allCommits]
    exact List.mem_append.mpr (Or.inl hc)
  have hmemR : ∀ c ∈ r.allCommits, c ∈ (MTree.node l r).allCommits := by
    intro c hc
    rw [MTree.allCommits]
    exact List.mem_append.mpr (Or.inr hc)
  rw [find_TallyCommitsDiffMerge hlc k]
  cases hfl : SMap.find ml k with
  | none =>
    have hlno := (hlx k).1.mp hfl
    constructor
    · rw [(hrx k).1]
      constructor
      · intro h c hc
        rw [MTree.allCommits] at hc
        rcases List.mem_append.mp hc with h' | h'
        · exact hlno c h'
        · exact h c h'
      · intro h c hc
        exact h c (hmemR c hc)
    · intro a ha
      obtain ⟨h1, h2, h3, h4⟩ := (hrx k).2 a ha
      refine ⟨h1, h2, h3, fun p => ?_⟩
      rw [h4 p, pathChar_eq, pathChar_eq, MTree.allCommits, touchesOf_append,
        touchesOf_eq_nil opts k p hlno, List.nil_append]
  | some aL =>
    have hlprops := (hlx k).2 aL hfl
    have hlsome_ex : ¬ (∀ c ∈ l.allCommits, opts.key c ≠ k) := by
      intro hall
      rw [(hlx k).1.mpr hall] at hfl
      cases hfl
    have hnotall : ¬ (∀ c ∈ (MTree.node l r).allCommits, opts.key c ≠ k) :=
      fun hall => hlsome_ex (fun c hc => hall c (hmemL c hc))
    cases hfr : SMap.find mr k with
    | none =>
      have hrno := (hrx k).1.mp hfr
      constructor
      · constructor
        · intro h
          cases h
        · intro hall
          exact absurd hall hnotall
      · intro a ha
        have haL : a = aL := (Option.some.inj ha).symm
        subst haL
        refine ⟨hlprops.1, hlprops.2.1, hlprops.2.2.1, fun p => ?_⟩
        rw [hlprops.2.2.2 p, pathChar_eq, pathChar_eq, MTree.allCommits,
          touchesOf_append, touchesOf_eq_nil opts k p hrno, List.append_nil]
    | some aR =>
      have hrprops := (hrx k).2 aR hfr
      constructor
      · constructor
        · intro h
          cases h
        · intro hall
          exact absurd hall hnotall
      · intro a ha
        have haU : a = aL.Union aR := (Option.some.inj ha).symm
        subst haU
        refine ⟨?_, ?_, ?_, ?_⟩
        · rw [Union_name]
          exact hlprops.1
        · rw [Union_email]
          exact hlprops.2.1
        · exact Union_canon _ hrprops.2.2.1
        · intro p
          rw [find_Union_paths hlprops.2.2.1 p, hlprops.2.2.2 p,
            hrprops.2.2.2 p]
          rcases hnotwo p with h0 | h0
          · have ht : touchesOf opts k p l.allCommits = [] :=
              (pathChar_none_iff opts k p l.allCommits).mp h0
            rw [h0]
            show pathChar opts k p r.allCommits = _
            rw [pathChar_eq, pathChar_eq, MTree.allCommits, touchesOf_append,
              ht, List.nil_append]
          · have ht : touchesOf opts k p r.allCommits = [] :=
              (pathChar_none_iff opts k p r.allCommits).mp h0
            rw [h0]
            cases h1 : pathChar opts k p l.allCommits with
            | none =>
              have htl : touchesOf opts k p l.allCommits = [] :=
                (pathChar_none_iff opts k p l.allCommits).mp h1
              show (none : Option intermediateTally) = _
              rw [pathChar_eq, MTree.allCommits, touchesOf_append, ht, htl]
              simp
            | some pa =>
              show some pa = _
              rw [pathChar_eq, MTree.allCommits, touchesOf_append, ht,
                List.append_nil, ← pathChar_eq, h1]

theorem reduceDiff_ok (opts : TallyOpts) (w : List String)
    (nm em : String → String) :
    ∀ (t : MTree), Coherent nm em opts t.allCommits →
      NoSharedTouch opts t.shards →
      ∃ m, reduceDiff w opts t = .ok m ∧ SMap.Canon m ∧
        ∀ k, (SMap.find m k = none ↔ ∀ c ∈ t.allCommits, opts.key c ≠ k) ∧
          ∀ a, SMap.find m k = some a →
            a.name = nm k ∧ a.email = em k ∧ SMap.Canon a.paths ∧
              ∀ p, SMap.find a.paths p = pathChar opts k p t.allCommits
  | .leaf s, hcoh, _ => by
    refine ⟨tableOf opts s, ?_, canon_tableOf opts s, fun k => ⟨?_, ?_⟩⟩
    · rw [reduceDiff, TallyCommitsDiffApply]
      exact tallyByPaths_ok opts w s
    · exact tableOf_none opts s k
    · intro a ha
      obtain ⟨h3, h4⟩ := tableOf_paths opts s k a ha
      obtain ⟨h1, h2⟩ := tableOf_names opts nm em s hcoh k a ha
      exact ⟨h1, h2, h3, h4⟩
  | .node l r, hcoh, hnst => by
    obtain ⟨hnl, hnr, hcross⟩ := noSharedTouch_node hnst
    obtain ⟨ml, hl, hlc, hlx⟩ := reduceDiff_ok opts w nm em l
      (coherent_append_left hcoh) hnl
    obtain ⟨mr, hr, hrc, hrx⟩ := reduceDiff_ok opts w nm em r
      (coherent_append_right hcoh) hnr
    refine ⟨TallyCommitsDiffMerge ml mr, ?_,
      canon_TallyCommitsDiffMerge ml hrc, ?_⟩
    · rw [reduceDiff, hl, hr]
    · exact fun k => mergeDiff_char opts nm em hlc hrc hlx hrx hcross k

/-! Permutation invariance of the characterisations. -/

theorem perm_toFinset {α : Type} [DecidableEq α] {l₁ l₂ : List α}
    (h : l₁.Perm l₂) : l₁.toFinset = l₂.toFinset := by
  apply Finset.ext
  intro x
  simp only [List.mem_toFinset]
  exact h.mem_iff

theorem touchVal_perm {ts₁ ts₂ : List (Commit × FileDiff)}
    (h : ts₁.Perm ts₂) : touchVal ts₁ = touchVal ts₂ := by
  simp only [touchVal, intermediateTally.mk.injEq]
  refine ⟨perm_toFinset (h.map _), (h.map _).sum_eq, (h.map _).sum_eq,
    ?_, trivial⟩
  exact h.foldl_eq'
    (fun x _ y _ z => by simp [Nat.max_comm, Nat.max_assoc, Nat.max_left_comm])
    0

theorem touchesOf_perm (opts : TallyOpts) (k p : String)
    {cs cs' : List Commit} (h : cs.Perm cs') :
    (touchesOf opts k p cs).Perm (touchesOf opts k p cs') :=
  (h.filter _).flatMap_right _

theorem pathChar_perm (opts : TallyOpts) (k p : String)
    {cs cs' : List Commit} (h : cs.Perm cs') :
    pathChar opts k p cs = pathChar opts k p cs' := by
  have ht := touchesOf_perm opts k p h
  rw [pathChar_eq, pathChar_eq]
  by_cases h0 : touchesOf opts k p cs = []
  · have h0' : touchesOf opts k p cs' = [] := by
      have hlen := ht.length_eq
      rw [h0] at hlen
      exact List.length_eq_zero.mp hlen.symm
    rw [if_pos h0, if_pos h0']
  · have h0' : touchesOf opts k p cs' ≠ [] := by
      intro he
      have hlen := ht.length_eq
      rw [he] at hlen
      exact h0 (List.length_eq_zero.mp hlen)
    rw [if_neg h0, if_neg h0', touchVal_perm ht]

theorem diffResult_eq_tableOf (opts : TallyOpts) (nm em : String → String)
    (commits : List Commit) (hcoh : Coherent nm em opts commits)
    (m : SMap AuthorPaths) (hcanon : SMap.Canon m)
    (hchar : ∀ k,
      (SMap.find m k = none ↔ ∀ c ∈ commits, opts.key c ≠ k) ∧
      ∀ a, SMap.find m k = some a → a.name = nm k ∧ a.email = em k ∧
        SMap.Canon a.paths ∧
        ∀ p, SMap.find a.paths p = pathChar opts k p commits) :
    m = tableOf opts commits := by
  apply SMap.ext_canon hcanon (canon_tableOf opts commits)
  intro k
  cases ht : SMap.find (tableOf opts commits) k with
  | none =>
    rw [(hchar k).1.mpr ((tableOf_none opts commits k).mp ht)]
  | some a2 =>
    cases hm : SMap.find m k with
    | none =>
      have hno := (hchar k).1.mp hm
      rw [(tableOf_none opts commits k).mpr hno] at ht
      cases ht
    | some a1 =>
      obtain ⟨hn1, he1, hc1, hp1⟩ := (hchar k).2 a1 hm
      obtain ⟨hc2, hp2⟩ := tableOf_paths opts commits k a2 ht
      obtain ⟨hn2, he2⟩ := tableOf_names opts nm em commits hcoh k a2 ht
      have hpaths : a1.paths = a2.paths :=
        SMap.ext_canon hc1 hc2 (fun p => (hp1 p).trans (hp2 p).symm)
      have heq : a1 = a2 := by
        obtain ⟨n1, e1, p1⟩ := a1
        obtain ⟨n2, e2, p2⟩ := a2
        simp only [AuthorPaths.mk.injEq]
        exact ⟨hn1.trans hn2.symm, he1.trans he2.symm, hpaths⟩
      rw [heq]

theorem tallyCommits_pathAware (opts : TallyOpts) (w : List String)
    (allow : Bool) (cs : List Commit)
    (h : (!opts.IsDiffMode && allow) = false) :
    tallyCommits (cs.map .ok) w allow opts
      = .ok (sumOverPaths (tableOf opts cs) w allow) := by
  rw [tallyCommits, h]
  simp only [Bool.false_eq_true, if_false]
  rw [tallyByPaths_ok opts w cs]

/-! Assembly of the two map-reduce equivalence regimes. -/

theorem simplePipeline_eq (opts : TallyOpts) (wtreeset : List String)
    (commits : List Commit) (t : MTree) (nm em : String → String)
    (hmode : opts.IsDiffMode = false)
    (hcoh : Coherent nm em opts commits)
    (hperm : t.allCommits.Perm commits) :
    (reduceSimple wtreeset true opts t).map (TallyCommitsFinalize opts)
      = TallyCommits (commits.map .ok) wtreeset true opts := by
  obtain ⟨m, hred, hcanon, hchar⟩ :=
    reduceSimple_ok opts wtreeset hmode nm em t (coherent_perm hperm hcoh)
  have hm : m = commits.foldl (tallySimpleStep opts) [] := by
    apply SMap.ext_canon hcanon (canon_simpleFold opts commits)
    intro k
    rw [hchar k, simpleFold_find opts nm em commits hcoh k,
      simpleChar_perm opts nm em k hperm]
  have hseq : TallyCommits (commits.map .ok) wtreeset true opts
      = .ok (sortTallies (commits.foldl (tallySimpleStep opts) [])
          opts.mode) := by
    rw [TallyCommits, tallyCommits_simple opts wtreeset commits hmode]
  rw [hred, hseq, hm]
  rfl

theorem diffPipeline_eq (opts : TallyOpts) (wtreeset : List String)
    (allow : Bool) (commits : List Commit) (t : MTree)
    (nm em : String → String)
    (hregime : (!opts.IsDiffMode && allow) = false)
    (hcoh : Coherent nm em opts commits)
    (hperm : t.allCommits.Perm commits)
    (hnst : NoSharedTouch opts t.shards) :
    (reduceDiff wtreeset opts t).map
        (TallyCommitsDiffFinalize wtreeset allow opts)
      = TallyCommits (commits.map .ok) wtreeset allow opts := by
  obtain ⟨m, hred, hcanon, hchar⟩ :=
    reduceDiff_ok opts wtreeset nm em t (coherent_perm hperm hcoh) hnst
  have hchar' : ∀ k,
      (SMap.find m k = none ↔ ∀ c ∈ commits, opts.key c ≠ k) ∧
      ∀ a, SMap.find m k = some a → a.name = nm k ∧ a.email = em k ∧
        SMap.Canon a.paths ∧
        ∀ p, SMap.find a.paths p = pathChar opts k p commits := by
    intro k
    obtain ⟨h1, h2⟩ := hchar k
    constructor
    · rw [h1]
      constructor
      · intro h c hc
        exact h c (hperm.mem_iff.mpr hc)
      · intro h c hc
        exact h c (hperm.mem_iff.mp hc)
    · intro a ha
      obtain ⟨hn, he, hcn, hp⟩ := h2 a ha
      exact ⟨hn, he, hcn, fun p =>
        (hp p).trans (pathChar_perm opts k p hperm)⟩
  have hm : m = tableOf opts commits :=
    diffResult_eq_tableOf opts nm em commits hcoh m hcanon hchar'
  have hseq : TallyCommits (commits.map .ok) wtreeset allow opts
      = .ok (sortTallies (sumOverPaths (tableOf opts commits) wtreeset allow)
          opts.mode) := by
    rw [TallyCommits, tallyCommits_pathAware opts wtreeset allow commits
      hregime]
  rw [hred, hseq, hm]
  rfl

/-! Characterisation of the author-level reduction `sumOverPaths`. -/

theorem canon_sumOverPaths (authors : SMap AuthorPaths) (w : List String)
    (allow : Bool) : SMap.Canon (sumOverPaths authors w allow) :=
  SMap.canon_mergeFold _ authors SMap.canon_nil

theorem find_sumOverPaths {authors : SMap AuthorPaths} (w : List String)
    (allow : Bool) (hc : SMap.Canon authors) (k : String) :
    SMap.find (sumOverPaths authors w allow) k
      = (SMap.find authors k).map (fun author =>
          let r := author.paths.foldl
            (fun r pv =>
              if decide (pv.1 ∈ w) || allow then r.Add pv.2 else r)
            (newTally 0)
          { AuthorName := author.name, AuthorEmail := author.email,
            Commits := r.Commits, LinesAdded := r.added,
            LinesRemoved := r.removed, FileCount := r.numTallied,
            LastCommitTime := r.lastCommitTime }) := by
  rw [sumOverPaths, SMap.find_mergeFold _ authors [] (SMap.canon_nodup hc) k]
  cases SMap.find authors k <;> rfl

theorem foldl_filter_add {α : Type} (q : α → Bool) (g : α → intermediateTally) :
    ∀ (l : List α) (init : intermediateTally),
      l.foldl (fun r x => if q x then r.Add (g x) else r) init
        = (l.filter q).foldl (fun r x => r.Add (g x)) init
  | [], _ => rfl
  | x :: l, init => by
    simp only [List.foldl_cons, List.filter_cons]
    by_cases h : q x
    · rw [if_pos h, if_pos h]
      simp only [List.foldl_cons]
      exact foldl_filter_add q g l _
    · rw [if_neg h, if_neg h]
      exact foldl_filter_add q g l _

theorem mem_commitset_foldlAdd {α : Type} (g : α → intermediateTally) :
    ∀ (l : List α) (init : intermediateTally) (x : String),
      x ∈ (l.foldl (fun r e => r.Add (g e)) init).commitset
        ↔ x ∈ init.commitset ∨ ∃ e ∈ l, x ∈ (g e).commitset
  | [], init, x => by simp
  | e :: l, init, x => by
    simp only [List.foldl_cons]
    rw [mem_commitset_foldlAdd g l (init.Add (g e)) x]
    show x ∈ (init.commitset ∪ (g e).commitset) ∨ _ ↔ _
    rw [Finset.mem_union]
    simp only [List.mem_cons]
    constructor
    · rintro ((h | h) | ⟨e', he', hx⟩)
      · exact Or.inl h
      · exact Or.inr ⟨e, Or.inl rfl, h⟩
      · exact Or.inr ⟨e', Or.inr he', hx⟩
    · rintro (h | ⟨e', rfl | he', hx⟩)
      · exact Or.inl (Or.inl h)
      · exact Or.inl (Or.inr hx)
      · exact Or.inr ⟨e', he', hx⟩

theorem filter_upsert {V : Type} (q : String → Bool) :
    ∀ (m : SMap V) (k : String) (v : V), q k = false →
      (SMap.upsert m k v).filter (fun pv => q pv.1)
        = m.filter (fun pv => q pv.1)
  | [], k, v, hk => by simp [SMap.upsert, hk]
  | (k', v') :: rest, k, v, hk => by
    by_cases h1 : keyLt k k'
    · simp only [SMap.upsert, if_pos h1]
      rw [List.filter_cons, if_neg (by simp [hk])]
    · by_cases h2 : k = k'
      · subst h2
        have hup : SMap.upsert ((k, v') :: rest) k v = (k, v) :: rest := by
          simp [SMap.upsert, h1]
        rw [hup, List.filter_cons, List.filter_cons,
          if_neg (by simp [hk]), if_neg (by simp [hk])]
      · simp only [SMap.upsert, if_neg h1, if_neg h2]
        rw [List.filter_cons, List.filter_cons]
        by_cases hq : q k'
        · rw [if_pos (by simp [hq]), if_pos (by simp [hq]),
            filter_upsert q rest k v hk]
        · rw [if_neg (by simp [hq]), if_neg (by simp [hq]),
            filter_upsert q rest k v hk]

theorem commitsOf_eq_card_qualSet (opts : TallyOpts) (w : List String)
    (allow : Bool) (cs : List Commit) (k : String) :
    commitsOf (sumOverPaths (tableOf opts cs) w allow) k
      = (qualSet opts w allow k cs).card := by
  cases ht : SMap.find (tableOf opts cs) k with
  | none =>
    have hno := (tableOf_none opts cs k).mp ht
    have hq : qualSet opts w allow k cs = ∅ := by
      rw [qualSet]
      have hf : cs.filter (fun c => decide (opts.key c = k) &&
          c.fileDiffs.any (fun d => decide (d.path ∈ w) || allow)) = [] :=
        List.filter_eq_nil_iff.mpr (fun c hc => by simp [hno c hc])
      rw [hf]
      rfl
    rw [commitsOf, find_sumOverPaths w allow (canon_tableOf opts cs) k, ht,
      hq]
    rfl
  | some a =>
    obtain ⟨hcanon, hchar⟩ := tableOf_paths opts cs k a ht
    rw [commitsOf, find_sumOverPaths w allow (canon_tableOf opts cs) k, ht]
    show (intermediateTally.Commits _) = _
    rw [intermediateTally.Commits]
    congr 1
    apply Finset.ext
    intro x
    rw [foldl_filter_add (fun pv => decide (pv.1 ∈ w) || allow) Prod.snd
      a.paths (newTally 0)]
    rw [mem_commitset_foldlAdd Prod.snd _ (newTally 0) x]
    constructor
    · rintro (h | ⟨pv, hpv, hx⟩)
      · simp [newTally] at h
      · obtain ⟨hmem, hq⟩ := List.mem_filter.mp hpv
        have hfind : SMap.find a.paths pv.1 = some pv.2 :=
          SMap.find_eq_some_of_mem hcanon (by
            rw [show (pv.1, pv.2) = pv from rfl]
            exact hmem)
        rw [hchar pv.1, pathChar_eq] at hfind
        by_cases hnil : touchesOf opts k pv.1 cs = []
        · rw [if_pos hnil] at hfind
          cases hfind
        · rw [if_neg hnil] at hfind
          have hpv2 := (Option.some.inj hfind).symm
          rw [hpv2] at hx
          rw [touchVal] at hx
          simp only [List.mem_toFinset, List.mem_map] at hx
          obtain ⟨e, he, hex⟩ := hx
          obtain ⟨hec, hek, hed, hep⟩ := mem_touchesOf.mp he
          rw [qualSet]
          simp only [List.mem_toFinset, List.mem_map, List.mem_filter]
          refine ⟨e.1, ⟨hec, ?_⟩, hex⟩
          have hany : e.1.fileDiffs.any
              (fun d => decide (d.path ∈ w) || allow) = true :=
            List.any_eq_true.mpr ⟨e.2, hed, by rw [hep]; exact hq⟩
          simp [hek, hany]
    · intro hx
      rw [qualSet] at hx
      simp only [List.mem_toFinset, List.mem_map, List.mem_filter] at hx
      obtain ⟨c, ⟨hc, hcq⟩, hcx⟩ := hx
      have hcq' : decide (opts.key c = k) = true ∧
          c.fileDiffs.any (fun d => decide (d.path ∈ w) || allow) = true := by
        simpa using hcq
      have hkey : opts.key c = k := of_decide_eq_true hcq'.1
      obtain ⟨d, hd, hdq⟩ := List.any_eq_true.mp hcq'.2
      refine Or.inr ?_
      have htouch : ((c, d) : Commit × FileDiff)
          ∈ touchesOf opts k d.path cs := by
        rw [mem_touchesOf]
        exact ⟨hc, hkey, hd, rfl⟩
      have hnil : touchesOf opts k d.path cs ≠ [] := by
        intro h0
        rw [h0] at htouch
        cases htouch
      have hfind : SMap.find a.paths d.path
          = some (touchVal (touchesOf opts k d.path cs)) := by
        rw [hchar d.path, pathChar_eq, if_neg hnil]
      refine ⟨(d.path, touchVal (touchesOf opts k d.path cs)),
        List.mem_filter.mpr ⟨SMap.mem_of_find_eq_some hfind, hdq⟩, ?_⟩
      rw [touchVal]
      simp only [List.mem_toFinset, List.mem_map]
      exact ⟨(c, d), htouch, hcx⟩

theorem qualSet_append (opts : TallyOpts) (w : List String) (allow : Bool)
    (k : String) (cs : List Commit) (c : Commit) (hkey : opts.key c = k)
    (hqual : c.fileDiffs.any (fun d => decide (d.path ∈ w) || allow) = true) :
    qualSet opts w allow k (cs ++ [c])
      = insert c.hash (qualSet opts w allow k cs) := by
  rw [qualSet, qualSet, List.filter_append]
  have hone : [c].filter (fun c' => decide (opts.key c' = k) &&
      c'.fileDiffs.any (fun d => decide (d.path ∈ w) || allow)) = [c] := by
    simp [hkey, hqual]
  rw [hone, List.map_append, List.toFinset_append]
  show _ ∪ {c.hash} = _
  rw [Finset.union_comm, ← Finset.insert_eq]

theorem hash_not_mem_qualSet (opts : TallyOpts) (w : List String)
    (allow : Bool) (k : String) {cs : List Commit} {c : Commit}
    (hfresh : ∀ c' ∈ cs, c'.hash ≠ c.hash) :
    c.hash ∉ qualSet opts w allow k cs := by
  rw [qualSet]
  intro hmem
  simp only [List.mem_toFinset, List.mem_map, List.mem_filter] at hmem
  obtain ⟨c', ⟨hc', _⟩, hx⟩ := hmem
  exact hfresh c' hc' hx

/-! Order-theoretic facts about the sort relation. -/

theorem tallyLE_iff (a b : Tally) (mode : TallyMode) :
    tallyLE mode a b ↔
      (b.SortKey mode < a.SortKey mode ∨
        (a.SortKey mode = b.SortKey mode ∧
          b.LastCommitTime ≤ a.LastCommitTime)) := by
  rw [tallyLE]
  simp only [Tally.Compare, timeCompare]
  generalize a.SortKey mode = x
  generalize b.SortKey mode = y
  generalize a.LastCommitTime = s
  generalize b.LastCommitTime = u
  split_ifs <;> omega

/-- Claim C6: for every map of tallies and every mode, the sequence returned
by `sortTallies` is non-increasing by `SortKey`, and among entries with equal
`SortKey` it is non-increasing by `LastCommitTime` (every earlier entry of
the output relates to every later entry this way). -/
theorem ranking_order (tallies : SMap Tally) (mode : TallyMode) :
    (sortTallies tallies mode).Pairwise (fun a b =>
      b.SortKey mode ≤ a.SortKey mode ∧
        (a.SortKey mode = b.SortKey mode →
          b.LastCommitTime ≤ a.LastCommitTime)) := by
  haveI : IsTotal Tally (tallyLE mode) := ⟨fun a b => by
    rw [tallyLE_iff, tallyLE_iff]
    generalize a.SortKey mode = x
    generalize b.SortKey mode = y
    generalize a.LastCommitTime = s
    generalize b.LastCommitTime = u
    omega⟩
  haveI : IsTrans Tally (tallyLE mode) := ⟨fun a b c hab hbc => by
    rw [tallyLE_iff] at hab hbc ⊢
    revert hab hbc
    generalize a.SortKey mode = x
    generalize b.SortKey mode = y
    generalize c.SortKey mode = z
    generalize a.LastCommitTime = s
    generalize b.LastCommitTime = u
    generalize c.LastCommitTime = v
    omega⟩
  have hs : (sortTallies tallies mode).Pairwise (tallyLE mode) := by
    rw [sortTallies]
    exact List.sorted_insertionSort (tallyLE mode) (tallies.map Prod.snd)
  refine hs.imp ?_
  intro a b hab
  rw [tallyLE_iff] at hab
  revert hab
  generalize a.SortKey mode = x
  generalize b.SortKey mode = y
  generalize a.LastCommitTime = s
  generalize b.LastCommitTime = u
  omega

/-- Claim C2 (counterexample): the Go `Add` does not leave its receiver
unchanged — after `a.Add b` the receiver's commit set holds the union.  At
the concrete partials below, the receiver's state after the call differs
from its state before. -/
theorem add_pure_cex :
    intermediateTally.AddLeftAfter cexIT1 cexIT2 ≠ cexIT1 := by decide

/-- Claim C2 (amended): `a.Add b` returns the union/sum/max combination as a
new value and does not touch `b`, but it mutates `a`'s backing commit set to
the union — the result's commit set aliases the receiver's — so `a` is left
changed exactly when `b` contributed a commit identifier not already in `a`.
-/
theorem add_effect (a b : intermediateTally) :
    a.Add b = ⟨a.commitset ∪ b.commitset, a.added + b.added,
      a.removed + b.removed, max a.lastCommitTime b.lastCommitTime,
      a.numTallied + b.numTallied⟩ ∧
    intermediateTally.AddLeftAfter a b
      = { a with commitset := (a.Add b).commitset } ∧
    (intermediateTally.AddLeftAfter a b = a ↔
      b.commitset ⊆ a.commitset) := by
  refine ⟨rfl, rfl, ?_⟩
  rw [intermediateTally.AddLeftAfter]
  constructor
  · intro h
    have := congrArg intermediateTally.commitset h
    simp only at this
    rw [← this]
    exact Finset.subset_union_right
  · intro h
    have : a.commitset ∪ b.commitset = a.commitset :=
      Finset.union_eq_left.mpr h
    rw [this]

/-- Claim C7: an error element in the commit sequence aborts both the
sequential engine and its wrapper immediately: whatever the mode and filter
configuration, and whatever elements follow the first error, the result is
the wrapped error and no tally map is produced. -/
theorem error_abort (opts : TallyOpts) (w : List String) (allow : Bool)
    (pre : List Commit) (e : String) (rest : List (Except String Commit)) :
    tallyCommits (pre.map .ok ++ .error e :: rest) w allow opts
      = .error (iterErrMsg ++ e) ∧
    TallyCommits (pre.map .ok ++ .error e :: rest) w allow opts
      = .error (iterErrMsg ++ e) := by
  have h1 : tallyCommits (pre.map .ok ++ .error e :: rest) w allow opts
      = .error (iterErrMsg ++ e) := by
    rw [tallyCommits]
    by_cases hc : (!opts.IsDiffMode && allow) = true
    · rw [if_pos hc]
      exact tallySimpleLoop_error opts pre [] e rest
    · rw [if_neg hc, tallyByPaths, tallyByPathsLoop_error opts pre [] e rest]
  refine ⟨h1, ?_⟩
  rw [TallyCommits, h1]

/-- Claim C8: the simple pipeline's `Apply` rejects exactly the
diff-requiring modes (`LinesMode`, `FilesMode`) with the configuration error
`unsupported tally mode`, before consuming any commit; for the other modes
no such error occurs and an error-free shard always yields a tally map. -/
theorem mode_guard (opts : TallyOpts) (w : List String) (allow : Bool) :
    (opts.IsDiffMode = true ↔
      (opts.mode = .LinesMode ∨ opts.mode = .FilesMode)) ∧
    (∀ commits, opts.IsDiffMode = true →
      TallyCommitsApply w allow opts commits = .error unsupportedModeErr) ∧
    (opts.IsDiffMode = false → ∀ (cs : List Commit),
      ∃ m, TallyCommitsApply w allow opts (cs.map .ok) = .ok m) := by
  refine ⟨?_, ?_, ?_⟩
  · cases hm : opts.mode <;> simp [TallyOpts.IsDiffMode, hm]
  · intro commits hd
    rw [TallyCommitsApply, if_pos hd]
  · intro hd cs
    rw [TallyCommitsApply, if_neg (by simp [hd])]
    by_cases hc : (!opts.IsDiffMode && allow) = true
    · exact ⟨_, by rw [tallyCommits, if_pos hc]
                   exact tallySimpleLoop_ok opts cs []⟩
    · refine ⟨sumOverPaths (tableOf opts cs) w allow, ?_⟩
      rw [tallyCommits, if_neg hc, tallyByPaths_ok opts w cs]

/-- Claim C8 (witness): at a concrete diff-requiring configuration the
error is returned, and at a concrete non-diff configuration a map is
produced. -/
theorem mode_guard_witness :
    TallyCommitsApply [] true ⟨.LinesMode, fun c => c.authorEmail⟩
        ([cexC1].map .ok) = .error unsupportedModeErr ∧
    ∃ m, TallyCommitsApply [] true cexOpts ([cexC1].map .ok) = .ok m :=
  ⟨(mode_guard ⟨.LinesMode, fun c => c.authorEmail⟩ [] true).2.1
      ([cexC1].map .ok) rfl,
    (mode_guard cexOpts [] true).2.2 rfl [cexC1]⟩

/-- Claim C9: for every tally and every mode of the enumerated set, the raw
Go-level switch (which panics on an out-of-enumeration integer) takes a
non-default branch and returns exactly the value the engine's `SortKey`
computes — the panic branch is unreachable for configurations whose mode
lies in the enumerated set. -/
theorem mode_dispatch_total (t : Tally) (mode : TallyMode) :
    SortKeyGo t (modeInt mode) = some (t.SortKey mode) := by
  cases mode <;> rfl

/-- Claim C10: with a non-diff mode and the filter override set, the engine
takes the simple strategy: every author's tally has zero line and file
counts, and its commit count is the number of delivered sequence elements
with that author key — duplicates counted per delivery, with no
commit-identifier deduplication. -/
theorem simple_strategy_counts (opts : TallyOpts) (w : List String)
    (cs : List Commit) (hmode : opts.IsDiffMode = false) :
    ∃ m, tallyCommits (cs.map .ok) w true opts = .ok m ∧
      TallyCommits (cs.map .ok) w true opts
        = .ok (sortTallies m opts.mode) ∧
      (∀ k t, SMap.find m k = some t →
        t.Commits = countKey opts k cs ∧ t.LinesAdded = 0 ∧
          t.LinesRemoved = 0 ∧ t.FileCount = 0) ∧
      (∀ t ∈ sortTallies m opts.mode, ∃ k, SMap.find m k = some t) := by
  refine ⟨cs.foldl (tallySimpleStep opts) [],
    tallyCommits_simple opts w cs hmode, ?_, ?_, ?_⟩
  · rw [TallyCommits, tallyCommits_simple opts w cs hmode]
  · intro k t ht
    exact (simpleFold_stats opts cs k).1 t ht
  · intro t ht
    rw [sortTallies] at ht
    have hmem : t ∈ (cs.foldl (tallySimpleStep opts) []).map Prod.snd :=
      (List.mem_insertionSort (tallyLE opts.mode)).mp ht
    obtain ⟨kv, hmem', heq⟩ := List.mem_map.mp hmem
    refine ⟨kv.1, ?_⟩
    rw [← heq]
    exact SMap.find_eq_some_of_mem (canon_simpleFold opts cs) hmem'

/-- Claim C10 (witness): a commit delivered twice is counted twice by the
simple strategy. -/
theorem simple_strategy_counts_witness :
    cexOpts.IsDiffMode = false ∧
    (∃ m, tallyCommits ([cexC1, cexC1].map .ok) [] true cexOpts = .ok m ∧
      TallyCommits ([cexC1, cexC1].map .ok) [] true cexOpts
        = .ok (sortTallies m cexOpts.mode) ∧
      (∀ k t, SMap.find m k = some t →
        t.Commits = countKey cexOpts k [cexC1, cexC1] ∧ t.LinesAdded = 0 ∧
          t.LinesRemoved = 0 ∧ t.FileCount = 0) ∧
      (∀ t ∈ sortTallies m cexOpts.mode, ∃ k, SMap.find m k = some t)) :=
  ⟨rfl, simple_strategy_counts cexOpts [] [cexC1, cexC1] rfl⟩

/-- Claim C1 (counterexample): map-reduce equivalence fails as stated.  Two
commits share the author key but spell the display name differently; the
sequential engine reports the last-seen name while the sharded
apply/merge/finalize run keeps the first operand's name, so the final tally
lists differ.  The shards form a partition of the error-free sequence and
the mode (`CommitMode`) is supported by the simple pipeline. -/
theorem mapreduce_equivalence_cex :
    (reduceSimple [] true cexOpts cexTree).map (TallyCommitsFinalize cexOpts)
      ≠ TallyCommits ([cexC1, cexC2].map .ok) [] true cexOpts := by
  intro h
  have h1 : (reduceSimple [] true cexOpts cexTree).map
      (TallyCommitsFinalize cexOpts)
      = .ok [⟨ "Alice", "k@x", 2, 0, 0, 0, 5⟩] := by rfl
  have h2 : TallyCommits ([cexC1, cexC2].map .ok) [] true cexOpts
      = .ok [⟨ "Bob", "k@x", 2, 0, 0, 0, 5⟩] := by rfl
  rw [h1, h2] at h
  exact absurd (Except.ok.inj h) (by decide)

/-- Claim C1 (amended): for every ranking mode and filter configuration,
and for any partition of an error-free commit sequence into shards combined
by `Merge` in any order or tree shape, the pipeline matching the
configuration's strategy yields the sequential `TallyCommits` result,
provided commits sharing an author key agree on display name and email
(without this the merge keeps the left operand's name, see the
counterexample), and — for the diff pipeline, whose spec-modelled table
union sums the per-path tallied counts — provided no author-path pair is
touched in two distinct shards. -/
theorem mapreduce_equivalence (opts : TallyOpts) (wtreeset : List String)
    (allow : Bool) (commits : List Commit) (t : MTree)
    (nm em : String → String) (hcoh : Coherent nm em opts commits)
    (hperm : t.allCommits.Perm commits) :
    (opts.IsDiffMode = false → allow = true →
      (reduceSimple wtreeset allow opts t).map (TallyCommitsFinalize opts)
        = TallyCommits (commits.map .ok) wtreeset allow opts) ∧
    ((!opts.IsDiffMode && allow) = false → NoSharedTouch opts t.shards →
      (reduceDiff wtreeset opts t).map
          (TallyCommitsDiffFinalize wtreeset allow opts)
        = TallyCommits (commits.map .ok) wtreeset allow opts) := by
  constructor
  · intro hmode hallow
    subst hallow
    exact simplePipeline_eq opts wtreeset commits t nm em hmode hcoh hperm
  · intro hregime hnst
    exact diffPipeline_eq opts wtreeset allow commits t nm em hregime hcoh
      hperm hnst

/-- Claim C1 (witness): the spec section 8 scenario, sharded into one shard
per author and reduced through the diff pipeline with the filter active,
agrees with the sequential engine. -/
theorem mapreduce_equivalence_witness :
    Coherent wNm wEm wOpts [tcA, tcB] ∧
    (reduceDiff [ "x.go", "y.go" ] wOpts wTree).map
        (TallyCommitsDiffFinalize [ "x.go", "y.go" ] false wOpts)
      = TallyCommits ([tcA, tcB].map .ok) [ "x.go", "y.go" ] false wOpts :=
  ⟨by decide,
    (mapreduce_equivalence wOpts [ "x.go", "y.go" ] false [tcA, tcB] wTree
      wNm wEm (by decide) (by decide)).2 (by decide) (by decide)⟩

/-- Claim C3: appending to the sequence a commit with a fresh identifier
that touches at least one qualifying file raises its author's final commit
count by exactly one, however many files the commit touches — the count is
the cardinality of the deduplicating hash set, never a sum of per-path
events.  (`tallyByPaths` is modelled from the spec; the second conjunct
records that the modelled table is what `tallyByPaths` returns.) -/
theorem dedup_law (opts : TallyOpts) (w : List String) (allow : Bool)
    (cs : List Commit) (c : Commit)
    (hfresh : ∀ c' ∈ cs, c'.hash ≠ c.hash)
    (hqual : ∃ d ∈ c.fileDiffs, (decide (d.path ∈ w) || allow) = true) :
    commitsOf (sumOverPaths (tableOf opts (cs ++ [c])) w allow) (opts.key c)
      = commitsOf (sumOverPaths (tableOf opts cs) w allow) (opts.key c) + 1 ∧
    tallyByPaths ((cs ++ [c]).map .ok) w opts
      = .ok (tableOf opts (cs ++ [c])) := by
  constructor
  · rw [commitsOf_eq_card_qualSet, commitsOf_eq_card_qualSet]
    have hany : c.fileDiffs.any
        (fun d => decide (d.path ∈ w) || allow) = true :=
      List.any_eq_true.mpr hqual
    rw [qualSet_append opts w allow (opts.key c) cs c rfl hany]
    exact Finset.card_insert_of_not_mem
      (hash_not_mem_qualSet opts w allow (opts.key c) hfresh)
  · exact tallyByPaths_ok opts w (cs ++ [c])

/-- Claim C3 (witness): author A's two-file commit raises A's commit count
by exactly one on top of a sequence already containing author B. -/
theorem dedup_law_witness :
    (∀ c' ∈ [tcB], c'.hash ≠ tcA.hash) ∧
    commitsOf (sumOverPaths (tableOf wOpts ([tcB] ++ [tcA]))
        [ "x.go", "y.go" ] false) (wOpts.key tcA)
      = commitsOf (sumOverPaths (tableOf wOpts [tcB])
          [ "x.go", "y.go" ] false) (wOpts.key tcA) + 1 :=
  ⟨by decide,
    (dedup_law wOpts [ "x.go", "y.go" ] false [tcB] tcA (by decide)
      (by decide)).1⟩

/-- Claim C4: in `sumOverPaths`, a historical path contributes to an
author's commit set, line totals, file count and last-commit time exactly
when it passes the working-tree filter or the override flag is set: the
reduced entry is the fold of exactly the qualifying path partials, and
replacing the partial stored at any non-qualifying path leaves the entire
result unchanged. -/
theorem filter_law (authors : SMap AuthorPaths) (w : List String)
    (allow : Bool) (hc : SMap.Canon authors) :
    (∀ k, SMap.find (sumOverPaths authors w allow) k
        = (SMap.find authors k).map (fun author =>
            let r := (author.paths.filter
                (fun pv => decide (pv.1 ∈ w) || allow)).foldl
                (fun r pv => r.Add pv.2) (newTally 0)
            { AuthorName := author.name, AuthorEmail := author.email,
              Commits := r.Commits, LinesAdded := r.added,
              LinesRemoved := r.removed, FileCount := r.numTallied,
              LastCommitTime := r.lastCommitTime })) ∧
    (∀ k a p pt', SMap.find authors k = some a →
      (decide (p ∈ w) || allow) = false →
      sumOverPaths (SMap.upsert authors k
          { a with paths := SMap.upsert a.paths p pt' }) w allow
        = sumOverPaths authors w allow) := by
  constructor
  · intro k
    rw [find_sumOverPaths w allow hc k]
    cases SMap.find authors k with
    | none => rfl
    | some author =>
      show some _ = some _
      beta_reduce
      rw [foldl_filter_add (fun pv => decide (pv.1 ∈ w) || allow) Prod.snd
        author.paths (newTally 0)]
  · intro k a p pt' ha hnq
    apply SMap.ext_canon (canon_sumOverPaths _ w allow)
      (canon_sumOverPaths authors w allow)
    intro k'
    rw [find_sumOverPaths w allow (SMap.canon_upsert hc k _) k',
      find_sumOverPaths w allow hc k']
    by_cases hk : k' = k
    · subst hk
      rw [SMap.find_upsert_self, ha]
      show some _ = some _
      beta_reduce
      have hfilter : (SMap.upsert a.paths p pt').filter
            (fun pv => decide (pv.1 ∈ w) || allow)
          = a.paths.filter (fun pv => decide (pv.1 ∈ w) || allow) :=
        filter_upsert (fun x => decide (x ∈ w) || allow) a.paths p pt' hnq
      rw [foldl_filter_add (fun pv => decide (pv.1 ∈ w) || allow) Prod.snd
        (SMap.upsert a.paths p pt') (newTally 0),
        foldl_filter_add (fun pv => decide (pv.1 ∈ w) || allow) Prod.snd
        a.paths (newTally 0), hfilter]
    · rw [SMap.find_upsert_ne _ _ _ _ hk]

/-- Claim C4 (witness): with the working tree holding only `x.go`,
replacing the partial stored at the filtered-out path `z.go` does not
change the reduction at all. -/
theorem filter_law_witness :
    SMap.Canon wAuthors ∧
    sumOverPaths (SMap.upsert wAuthors "a@x"
        { wAuthorA with
          paths := SMap.upsert wAuthorA.paths "z.go" (newTally 5) })
        [ "x.go" ] false
      = sumOverPaths wAuthors [ "x.go" ] false :=
  ⟨by decide,
    (filter_law wAuthors [ "x.go" ] false (by decide)).2 "a@x" wAuthorA
      "z.go" (newTally 5) (by decide) (by decide)⟩

/-- Claim C5 (counterexample): the simple pipeline's `Merge` is not
commutative over partials derived from disjoint shards of the same
sequence: the two shard partials below are exactly what `Apply` returns on
the shards of the sequence `[cexC1, cexC2]`, and merging them in the two
orders yields different author names. -/
theorem merge_comm_cex :
    TallyCommitsApply [] true cexOpts ([cexC1].map .ok) = .ok cexP1 ∧
    TallyCommitsApply [] true cexOpts ([cexC2].map .ok) = .ok cexP2 ∧
    TallyCommitsMerge cexP1 cexP2 ≠ TallyCommitsMerge cexP2 cexP1 := by
  refine ⟨rfl, rfl, ?_⟩
  decide

/-- Claim C5 (amended): `intermediateTally.Add` is commutative and
associative as a value; the simple pipeline's `Merge` is associative on
canonical maps, and it is commutative provided the two partials agree, at
every shared key, on every field other than the commit count and the
last-commit time (author name, email, line counts and file count — the
fields the merge copies from its left operand). -/
theorem add_merge_algebra :
    (∀ a b : intermediateTally, a.Add b = b.Add a) ∧
    (∀ a b c : intermediateTally, (a.Add b).Add c = a.Add (b.Add c)) ∧
    (∀ a b c : SMap Tally, SMap.Canon a → SMap.Canon b → SMap.Canon c →
      TallyCommitsMerge (TallyCommitsMerge a b) c
        = TallyCommitsMerge a (TallyCommitsMerge b c)) ∧
    (∀ a b : SMap Tally, SMap.Canon a → SMap.Canon b →
      (∀ k ta tb, SMap.find a k = some ta → SMap.find b k = some tb →
        ta.AuthorName = tb.AuthorName ∧ ta.AuthorEmail = tb.AuthorEmail ∧
          ta.LinesAdded = tb.LinesAdded ∧ ta.LinesRemoved = tb.LinesRemoved ∧
          ta.FileCount = tb.FileCount) →
      TallyCommitsMerge a b = TallyCommitsMerge b a) := by
  refine ⟨?_, ?_, ?_, ?_⟩
  · intro a b
    simp only [intermediateTally.Add, intermediateTally.mk.injEq]
    exact ⟨Finset.union_comm _ _, Nat.add_comm _ _, Nat.add_comm _ _,
      Nat.max_comm _ _, Nat.add_comm _ _⟩
  · intro a b c
    simp only [intermediateTally.Add, intermediateTally.mk.injEq]
    exact ⟨Finset.union_assoc _ _ _, Nat.add_assoc _ _ _,
      Nat.add_assoc _ _ _, Nat.max_assoc _ _ _, Nat.add_assoc _ _ _⟩
  · intro a b c ha hb hc
    apply SMap.ext_canon
      (canon_TallyCommitsMerge _ hc)
      (canon_TallyCommitsMerge a (canon_TallyCommitsMerge b hc))
    intro k
    rw [find_TallyCommitsMerge (canon_TallyCommitsMerge a hb) k,
      find_TallyCommitsMerge ha k, find_TallyCommitsMerge ha k,
      find_TallyCommitsMerge hb k]
    cases SMap.find a k <;> cases SMap.find b k <;> cases SMap.find c k <;>
      simp [zeroTally, Nat.add_assoc, Nat.max_assoc]
  · intro a b ha hb hagree
    apply SMap.ext_canon (canon_TallyCommitsMerge a hb)
      (canon_TallyCommitsMerge b ha)
    intro k
    rw [find_TallyCommitsMerge ha k, find_TallyCommitsMerge hb k]
    cases hfa : SMap.find a k with
    | none =>
      cases hfb : SMap.find b k with
      | none => rfl
      | some tb =>
        obtain ⟨n, e, cm, la, lr, fc, lc⟩ := tb
        simp [zeroTally]
    | some ta =>
      cases hfb : SMap.find b k with
      | none =>
        obtain ⟨n, e, cm, la, lr, fc, lc⟩ := ta
        simp [zeroTally]
      | some tb =>
        obtain ⟨e1, e2, e3, e4, e5⟩ := hagree k ta tb hfa hfb
        obtain ⟨n1, m1, cm1, la1, lr1, fc1, lc1⟩ := ta
        obtain ⟨n2, m2, cm2, la2, lr2, fc2, lc2⟩ := tb
        simp only at e1 e2 e3 e4 e5
        subst e1
        subst e2
        subst e3
        subst e4
        subst e5
        simp [Nat.add_comm, Nat.max_comm]

/-- Claim C5 (witness): `Add` commutes at concrete partials, and `Merge`
associates on concrete canonical maps. -/
theorem add_merge_algebra_witness :
    cexIT1.Add cexIT2 = cexIT2.Add cexIT1 ∧
    TallyCommitsMerge (TallyCommitsMerge cexP1 cexP2) wAgree
      = TallyCommitsMerge cexP1 (TallyCommitsMerge cexP2 wAgree) :=
  ⟨add_merge_algebra.1 cexIT1 cexIT2,
    add_merge_algebra.2.2.1 cexP1 cexP2 wAgree (by decide) (by decide)
      (by decide)⟩

end GitWho
